import Mathlib

/-!
Shallow embedding of the LFU cache from `internal/lfu/lfu.go` (package
`lfu`).  Keys are specialised to `Nat` and values to `Int` (the Go code is
generic over `K comparable, V any`; every claim is about integer-like keys
and values).

Representation choices, mirroring the Go data structures:
* `nodeValue` becomes `Entry`; its intrusive `prev`/`next`/`frequency`
  pointers are represented structurally by the entry's position inside its
  bucket's `entries` list (front = `first`, back = `last`).
* `nodeList` becomes `Bucket`; the chain of buckets hanging off the
  sentinel (`sentinel.next` = front = lowest frequency, `sentinel.prev` =
  back) becomes the list `buckets`, front first.
* the Go map `mp` has a domain (`len(mp)`, `_, exists := mp[key]`,
  `delete`, `mp[key] = node`) and pointer payloads; the domain is modelled
  explicitly by `mpKeys`, and dereferencing `mp[key]` is modelled as
  key lookup in the chain (valid because, in every reachable state, `mp`
  maps each present key to the unique chain node carrying that key).
* Go `panic`/nil-pointer dereference is modelled as `none` (`Option`).
* `Entry.touch` and `CacheImpl.clock` are ghost history fields (absent in
  Go): `touch` records the logical time at which an operation last touched
  the entry, and each `Get`/`Put` advances the clock.  They instrument
  recency so that "most recently touched" can be stated; they do not
  influence any computed key, value, frequency or list shape.
-/

namespace LFU

/-- One key/value node (`nodeValue` in lfu.go), with the ghost `touch`
time of the last touching operation. -/
structure Entry where
  key : Nat
  value : Int
  touch : Nat
deriving DecidableEq, Repr

/-- One frequency bucket (`nodeList` in lfu.go): the shared access count
and the entries at that count, listed front (`first`) to back (`last`). -/
structure Bucket where
  frequency : Nat
  entries : List Entry
deriving DecidableEq, Repr

/-- The cache (`cacheImpl` in lfu.go): capacity, the frequency chain from
front (lowest frequency, `sentinel.next`) to back, the domain of the hash
index `mp`, and the ghost logical clock. -/
structure CacheImpl where
  capacity : Nat
  buckets : List Bucket
  mpKeys : List Nat
  clock : Nat
deriving DecidableEq, Repr

/-- `DefaultCapacity` constant from lfu.go. -/
def DefaultCapacity : Nat := 5

/-- `New` from lfu.go: the variadic `capacity ...int` argument becomes
`Option Int` (no argument / one argument); a negative capacity panics,
which is modelled as `none`. -/
def New (capacity : Option Int) : Option CacheImpl :=
  match capacity with
  | none => some ⟨DefaultCapacity, [], [], 0⟩
  | some n => if n < 0 then none else some ⟨n.toNat, [], [], 0⟩

/-- `Size` from lfu.go: `len(l.mp)`. -/
def Size (c : CacheImpl) : Nat := c.mpKeys.length

/-- `Capacity` from lfu.go. -/
def Capacity (c : CacheImpl) : Nat := c.capacity

/-- The keys stored in one bucket, front to back. -/
def bucketKeys (b : Bucket) : List Nat := b.entries.map Entry.key

/-- All keys stored in the chain, front bucket first. -/
def chainKeys (bs : List Bucket) : List Nat := (bs.map bucketKeys).flatten

/-- All entries of the chain paired with their bucket's frequency, front
bucket first, each bucket front to back. -/
def chainEntries (bs : List Bucket) : List (Entry × Nat) :=
  (bs.map (fun b => b.entries.map (fun e => (e, b.frequency)))).flatten

/-- Dereferencing `l.mp[key]`: the unique chain node with the given key,
together with `node.frequency.frequency`. -/
def findEntryFreq (bs : List Bucket) (k : Nat) : Option (Entry × Nat) :=
  (chainEntries bs).find? (fun p => p.1.key == k)

/-- The stored value of a key (`node.value`). -/
def findValue (bs : List Bucket) (k : Nat) : Option Int :=
  (findEntryFreq bs k).map (fun p => p.1.value)

/-- `GetKeyFrequency` from lfu.go: `none` models `ErrKeyNotFound`. -/
def GetKeyFrequency (c : CacheImpl) (k : Nat) : Option Nat :=
  if k ∈ c.mpKeys then (findEntryFreq c.buckets k).map (fun p => p.2)
  else none

/-- `addFrontByFreq` from lfu.go: put an entry at the front of a bucket's
entry list.  The Go code dereferences `l.first.prev`, so calling it on an
empty bucket is a nil-pointer panic, modelled as `none`. -/
def addFrontByFreq (b : Bucket) (e : Entry) : Option Bucket :=
  match b.entries with
  | [] => none
  | _ :: _ => some ⟨b.frequency, e :: b.entries⟩

/-- The hit path of `Get` from lfu.go, acting on the chain: `value.untie()`
(removal from the current bucket), then either reuse of the successor
bucket when its frequency is exactly `frequency+1` (`addFrontByFreq`) or
splicing of a fresh bucket right after the current one
(`addListFrontOrAfter`), then removal of the current bucket if it became
empty.  `t` is the ghost touch time given to the moved entry; `remaining`
is the current bucket's entry list after `untie`.  `none` models
`addFrontByFreq` hitting an empty bucket (a nil-pointer panic). -/
def promoteLocal (t : Nat) (b : Bucket) (e : Entry) (remaining : List Entry)
    (rest : List Bucket) : Option (List Bucket) :=
  match rest with
  | [] =>
    some (if remaining.isEmpty then [⟨b.frequency + 1, [⟨e.key, e.value, t⟩]⟩]
          else [⟨b.frequency, remaining⟩, ⟨b.frequency + 1, [⟨e.key, e.value, t⟩]⟩])
  | nb :: rest2 =>
    if b.frequency + 1 = nb.frequency then
      (addFrontByFreq nb ⟨e.key, e.value, t⟩).map (fun nb2 =>
        if remaining.isEmpty then nb2 :: rest2
        else ⟨b.frequency, remaining⟩ :: nb2 :: rest2)
    else
      some (if remaining.isEmpty then
              ⟨b.frequency + 1, [⟨e.key, e.value, t⟩]⟩ :: nb :: rest2
            else
              ⟨b.frequency, remaining⟩ ::
                ⟨b.frequency + 1, [⟨e.key, e.value, t⟩]⟩ :: nb :: rest2)

/-- The whole hit path of `Get`: locate the bucket holding key `k` (in Go
this is the O(1) dereference of `mp[key]` followed by `value.untie()`),
then apply `promoteLocal` there.  `none` models a crash: the key not
being in the chain at all (a dangling `mp` entry), or the crash inside
`promoteLocal`. -/
def promote (k t : Nat) : List Bucket → Option (List Bucket)
  | [] => none
  | b :: rest =>
    match b.entries.find? (fun e => e.key == k) with
    | none => (promote k t rest).map (fun r => b :: r)
    | some e => promoteLocal t b e (b.entries.eraseP (fun x => x.key == k)) rest

/-- `Get` from lfu.go.  `some (none, c)` is the `ErrKeyNotFound` miss (the
state is untouched: the miss path only reads `mp`); `some (some v, c')` is
a hit returning `value.value` after the frequency bump; `none` is a crash
(impossible from a reachable state, see `c6_no_failure`). -/
def Get (c : CacheImpl) (k : Nat) : Option (Option Int × CacheImpl) :=
  if k ∈ c.mpKeys then
    match findValue c.buckets k, promote k c.clock c.buckets with
    | some v, some bs => some (some v, ⟨c.capacity, bs, c.mpKeys, c.clock + 1⟩)
    | _, _ => none
  else some (none, c)

/-- `delLast` from lfu.go: drop the back (`last`) entry of the front
bucket, deleting its key from `mp`; the bucket itself is unlinked when it
held at most one entry (`first == nil || first.next == nil`).  An empty
chain is a no-op (`lastFreqNode == nil`); a front bucket with no entries
would dereference `lastFreqNode.last.key` on nil, modelled as `none`. -/
def delLast (c : CacheImpl) : Option CacheImpl :=
  match c.buckets with
  | [] => some c
  | b :: rest =>
    match b.entries.getLast? with
    | none => none
    | some e =>
      if b.entries.length ≤ 1 then
        some ⟨c.capacity, rest, c.mpKeys.erase e.key, c.clock⟩
      else
        some ⟨c.capacity, ⟨b.frequency, b.entries.dropLast⟩ :: rest,
              c.mpKeys.erase e.key, c.clock⟩

/-- `node.value = value` in `Put`'s existing-key path: overwrite the value
stored at key `k` (the chain node `mp[k]` points to). -/
def setValue (bs : List Bucket) (k : Nat) (v : Int) : List Bucket :=
  bs.map (fun b =>
    ⟨b.frequency, b.entries.map (fun e =>
      if e.key == k then ⟨e.key, v, e.touch⟩ else e)⟩)

/-- The insertion tail of `Put` from lfu.go: a fresh node with frequency 1
goes to the front of the front bucket when that bucket's frequency is 1
(`addFrontByFreq`), otherwise into a fresh frequency-1 bucket spliced at
the front of the chain (`addListFrontOrAfter(1, node)`), and the key is
added to `mp`. -/
def insertNew (c : CacheImpl) (k : Nat) (v : Int) : Option CacheImpl :=
  match c.buckets with
  | [] => some ⟨c.capacity, [⟨1, [⟨k, v, c.clock⟩]⟩], k :: c.mpKeys, c.clock + 1⟩
  | fb :: rest =>
    if fb.frequency = 1 then
      (addFrontByFreq fb ⟨k, v, c.clock⟩).map
        (fun fb2 => ⟨c.capacity, fb2 :: rest, k :: c.mpKeys, c.clock + 1⟩)
    else
      some ⟨c.capacity, ⟨1, [⟨k, v, c.clock⟩]⟩ :: fb :: rest,
            k :: c.mpKeys, c.clock + 1⟩

/-- `Put` from lfu.go.  Existing key: overwrite the value, then bump the
frequency by re-running `Get` (whose error branch `panic(err)` is the
`none` fall-through).  New key: evict via `delLast` when
`Size() >= capacity`, then insert at frequency 1. -/
def Put (c : CacheImpl) (k : Nat) (v : Int) : Option CacheImpl :=
  if k ∈ c.mpKeys then
    match Get ⟨c.capacity, setValue c.buckets k v, c.mpKeys, c.clock⟩ k with
    | some (some _, c2) => some c2
    | _ => none
  else
    match (if Size c ≥ c.capacity then delLast c else some c) with
    | none => none
    | some c1 => insertNew c1 k v

/-- The inner loop of `All` from lfu.go over one bucket's entries: the
pairs handed to `yield` (in order), and whether iteration continues
(`yield` never returned `false`). -/
def yieldEntries (yield : Nat → Int → Bool) : List Entry → List (Nat × Int) × Bool
  | [] => ([], true)
  | e :: rest =>
    if yield e.key e.value then
      let r := yieldEntries yield rest
      ((e.key, e.value) :: r.1, r.2)
    else ([(e.key, e.value)], false)

/-- The outer loop of `All` from lfu.go, over a list of buckets in visit
order; stops as soon as some `yield` returned `false`. -/
def yieldBuckets (yield : Nat → Int → Bool) : List Bucket → List (Nat × Int)
  | [] => []
  | b :: rest =>
    let r := yieldEntries yield b.entries
    if r.2 then r.1 ++ yieldBuckets yield rest else r.1

/-- `All` from lfu.go: the iterator walks the chain from `sentinel.prev`
backwards (highest frequency first) and each bucket front to back,
handing pairs to `yield` until it returns `false`.  The result is the
sequence of pairs handed to `yield`. -/
def All (c : CacheImpl) (yield : Nat → Int → Bool) : List (Nat × Int) :=
  yieldBuckets yield c.buckets.reverse

/-- The full enumeration: `All` with a consumer that never stops. -/
def AllPairs (c : CacheImpl) : List (Nat × Int) := All c (fun _ _ => true)

/-- Entries in `All`'s visit order, each with its bucket's frequency. -/
def allEntriesOrder (c : CacheImpl) : List (Entry × Nat) :=
  chainEntries c.buckets.reverse

/-- Specification of early termination: the pairs handed to `yield` are an
initial segment of the full enumeration, cut just after the first pair on
which `yield` answers `false`. -/
def emitStop (yield : Nat → Int → Bool) : List (Nat × Int) → List (Nat × Int)
  | [] => []
  | p :: rest => if yield p.1 p.2 then p :: emitStop yield rest else [p]

/-- One public operation, for reachability traces.  `getFreq`, `size`,
`cap` and `iterate` (i.e. `GetKeyFrequency`, `Size`, `Capacity`, `All`)
read the cache without mutating it. -/
inductive Op where
  | get (k : Nat)
  | put (k : Nat) (v : Int)
  | getFreq (k : Nat)
  | size
  | cap
  | iterate
deriving DecidableEq, Repr

/-- The state after one operation; `none` models a crash. -/
def applyOp (c : CacheImpl) : Op → Option CacheImpl
  | .get k => (Get c k).map (fun r => r.2)
  | .put k v => Put c k v
  | .getFreq _ => some c
  | .size => some c
  | .cap => some c
  | .iterate => some c

/-- Run a list of operations from a state. -/
def run (c : CacheImpl) : List Op → Option CacheImpl
  | [] => some c
  | op :: ops => (applyOp c op).bind (fun c2 => run c2 ops)

/-- A cache state reachable from some construction by some sequence of
operations. -/
def Reachable (c : CacheImpl) : Prop :=
  ∃ capArg ops c0, New capArg = some c0 ∧ run c0 ops = some c

/-! ## The representation invariant -/

/-- The representation invariant of a well-formed cache, holding in every
reachable state: the hash index and the chain list the same keys with no
duplicates, frequencies are positive and strictly increase front-to-back,
buckets are never empty, and within each bucket entries sit in strictly
decreasing order of last touch (front = most recent); all touches are in
the past of the ghost clock, and the size never exceeds
`max capacity 1`. -/
structure Inv (c : CacheImpl) : Prop where
  mp_nodup : c.mpKeys.Nodup
  mp_perm : List.Perm c.mpKeys (chainKeys c.buckets)
  sorted : (c.buckets.map Bucket.frequency).Chain' (· < ·)
  freq_pos : ∀ b ∈ c.buckets, 1 ≤ b.frequency
  buckets_ne : ∀ b ∈ c.buckets, b.entries ≠ []
  touch_lt : ∀ b ∈ c.buckets, ∀ e ∈ b.entries, e.touch < c.clock
  recency : ∀ b ∈ c.buckets, (b.entries.map Entry.touch).Chain' (· > ·)
  size_bound : c.mpKeys.length ≤ max c.capacity 1

theorem chainKeys_nodup {c : CacheImpl} (h : Inv c) : (chainKeys c.buckets).Nodup :=
  h.mp_nodup.perm h.mp_perm

@[simp] theorem chainEntries_nil : chainEntries [] = [] := rfl

@[simp] theorem chainEntries_cons {b : Bucket} {bs : List Bucket} :
    chainEntries (b :: bs) =
      b.entries.map (fun e => (e, b.frequency)) ++ chainEntries bs := rfl

@[simp] theorem chainKeys_nil : chainKeys [] = [] := rfl

@[simp] theorem chainKeys_cons {b : Bucket} {bs : List Bucket} :
    chainKeys (b :: bs) = bucketKeys b ++ chainKeys bs := rfl

@[simp] theorem chainEntries_append {bs bs' : List Bucket} :
    chainEntries (bs ++ bs') = chainEntries bs ++ chainEntries bs' := by
  induction bs with
  | nil => rfl
  | cons b bs ih => simp [ih]

theorem chainKeys_eq_map {bs : List Bucket} :
    chainKeys bs = (chainEntries bs).map (fun p => p.1.key) := by
  induction bs with
  | nil => rfl
  | cons b bs ih =>
    simp only [chainKeys_cons, chainEntries_cons, List.map_append, List.map_map, ih]
    rfl

theorem chainEntries_reverse {bs : List Bucket} :
    chainEntries bs.reverse = (bs.reverse.map
      (fun b => b.entries.map (fun e => (e, b.frequency)))).flatten := rfl

/-- A `find?` by key returns the unique element carrying that key when the
keys of the list have no duplicates. -/
theorem find?_key_unique {α β : Type} [DecidableEq β] (f : α → β) {l : List α}
    (hnd : (l.map f).Nodup) {x : α} (hx : x ∈ l) {k : β} (hk : f x = k) :
    l.find? (fun y => f y == k) = some x := by
  induction l with
  | nil => cases hx
  | cons a l ih =>
    simp only [List.map_cons, List.nodup_cons] at hnd
    rcases List.mem_cons.1 hx with rfl | hx'
    · simp [hk]
    · have hfa : (f a == k) = false := by
        refine beq_eq_false_iff_ne.2 ?_
        intro hcontra
        have hmem : f x ∈ l.map f := List.mem_map_of_mem f hx'
        rw [hk, ← hcontra] at hmem
        exact hnd.1 hmem
      simp only [List.find?_cons, hfa]
      exact ih hnd.2 hx'

/-- A list is a permutation of its first `p`-match consed onto the
`p`-erasure. -/
theorem perm_cons_eraseP_of_find? {α : Type} {p : α → Bool} {l : List α} {a : α}
    (h : l.find? p = some a) : List.Perm l (a :: l.eraseP p) := by
  obtain ⟨hpa, as, bs, rfl, hno⟩ := List.find?_eq_some.1 h
  have hno' : ∀ x ∈ as, ¬ p x = true := by
    intro x hx
    have := hno x hx
    simp_all
  rw [List.eraseP_append_right _ hno', List.eraseP_cons_of_pos hpa]
  exact List.perm_middle

/-! ## Properties of the frequency-bump (`promote`) -/

theorem promoteLocal_isSome {t : Nat} {b : Bucket} {e : Entry}
    {remaining : List Entry} {rest : List Bucket}
    (hne : ∀ b' ∈ rest, b'.entries ≠ []) :
    (promoteLocal t b e remaining rest).isSome := by
  unfold promoteLocal
  cases rest with
  | nil => simp
  | cons nb rest2 =>
    by_cases hf : b.frequency + 1 = nb.frequency
    · have hnb : nb.entries ≠ [] := hne nb (List.mem_cons_self nb rest2)
      cases hnbe : nb.entries with
      | nil => exact absurd hnbe hnb
      | cons x xs => simp [hf, addFrontByFreq, hnbe]
    · simp [hf]

theorem promoteLocal_perm {t : Nat} {b : Bucket} {e : Entry}
    {remaining : List Entry} {rest : List Bucket} {bs' : List Bucket}
    (h : promoteLocal t b e remaining rest = some bs') :
    List.Perm (chainEntries bs')
      ((⟨e.key, e.value, t⟩, b.frequency + 1) ::
        (remaining.map (fun x => (x, b.frequency)) ++ chainEntries rest)) := by
  cases rest with
  | nil =>
    simp only [promoteLocal] at h
    cases remaining with
    | nil =>
      simp only [List.isEmpty_nil, if_true, Option.some.injEq] at h
      subst h
      simp
    | cons r rs =>
      simp only [List.isEmpty_cons, if_neg, Option.some.injEq, Bool.false_eq_true,
        not_false_eq_true] at h
      subst h
      simp only [chainEntries_cons, chainEntries_nil, List.map_cons, List.map_nil,
        List.append_nil, List.map_singleton, List.singleton_append]
      exact List.perm_append_singleton _ _
  | cons nb rest2 =>
    simp only [promoteLocal] at h
    by_cases hf : b.frequency + 1 = nb.frequency
    · rw [if_pos hf] at h
      cases hnbe : nb.entries with
      | nil => rw [addFrontByFreq, hnbe] at h; cases h
      | cons x xs =>
        rw [addFrontByFreq, hnbe] at h
        cases remaining with
        | nil =>
          simp only [List.isEmpty_nil, if_true, Option.map_some', Option.some.injEq] at h
          subst h
          simp [hnbe, ← hf]
        | cons r rs =>
          simp only [List.isEmpty_cons, if_neg, Bool.false_eq_true, not_false_eq_true,
            Option.map_some', Option.some.injEq] at h
          subst h
          simp only [chainEntries_cons, hnbe, List.map_cons, ← hf, List.cons_append,
            List.append_assoc]
          exact @List.perm_middle _ (⟨e.key, e.value, t⟩, b.frequency + 1)
            ((r, b.frequency) :: rs.map (fun x => (x, b.frequency)))
            (((x, b.frequency + 1) :: xs.map (fun x => (x, b.frequency + 1))) ++
              chainEntries rest2)
    · rw [if_neg hf] at h
      cases remaining with
      | nil =>
        simp only [List.isEmpty_nil, if_true, Option.some.injEq] at h
        subst h
        simp
      | cons r rs =>
        simp only [List.isEmpty_cons, if_neg, Option.some.injEq, Bool.false_eq_true,
          not_false_eq_true] at h
        subst h
        simp only [chainEntries_cons, List.map_cons, List.map_nil, List.cons_append,
          List.nil_append, List.append_assoc]
        exact @List.perm_middle _ (⟨e.key, e.value, t⟩, b.frequency + 1)
          ((r, b.frequency) :: rs.map (fun x => (x, b.frequency)))
          ((nb.entries.map (fun e => (e, nb.frequency))) ++ chainEntries rest2)

theorem promoteLocal_sorted {t : Nat} {b : Bucket} {e : Entry}
    {remaining : List Entry} {rest : List Bucket} {bs' : List Bucket}
    (h : promoteLocal t b e remaining rest = some bs')
    (hs : ((b :: rest).map Bucket.frequency).Chain' (· < ·)) :
    (bs'.map Bucket.frequency).Chain' (· < ·) ∧
      ∀ hd ∈ bs'.head?, b.frequency ≤ hd.frequency := by
  cases rest with
  | nil =>
    simp only [promoteLocal] at h
    cases remaining with
    | nil =>
      simp only [List.isEmpty_nil, if_true, Option.some.injEq] at h
      subst h
      refine ⟨by simp, ?_⟩
      intro hd hhd
      simp only [List.head?_cons, Option.mem_def, Option.some.injEq] at hhd
      subst hhd
      exact Nat.le_succ _
    | cons r rs =>
      simp only [List.isEmpty_cons, if_neg, Option.some.injEq, Bool.false_eq_true,
        not_false_eq_true] at h
      subst h
      refine ⟨by simp [List.chain'_cons], ?_⟩
      intro hd hhd
      simp only [List.head?_cons, Option.mem_def, Option.some.injEq] at hhd
      subst hhd
      exact Nat.le_refl _
  | cons nb rest2 =>
    simp only [promoteLocal] at h
    simp only [List.map_cons, List.chain'_cons] at hs
    obtain ⟨hlt, hs2⟩ := hs
    by_cases hf : b.frequency + 1 = nb.frequency
    · rw [if_pos hf] at h
      cases hnbe : nb.entries with
      | nil => rw [addFrontByFreq, hnbe] at h; cases h
      | cons x xs =>
        rw [addFrontByFreq, hnbe] at h
        cases remaining with
        | nil =>
          simp only [List.isEmpty_nil, if_true, Option.map_some', Option.some.injEq] at h
          subst h
          refine ⟨hs2, ?_⟩
          intro hd hhd
          simp only [List.head?_cons, Option.mem_def, Option.some.injEq] at hhd
          subst hhd
          exact Nat.le_of_lt hlt
        | cons r rs =>
          simp only [List.isEmpty_cons, if_neg, Bool.false_eq_true, not_false_eq_true,
            Option.map_some', Option.some.injEq] at h
          subst h
          refine ⟨List.chain'_cons.2 ⟨hlt, hs2⟩, ?_⟩
          intro hd hhd
          simp only [List.head?_cons, Option.mem_def, Option.some.injEq] at hhd
          subst hhd
          exact Nat.le_refl _
    · rw [if_neg hf] at h
      have hlt' : b.frequency + 1 < nb.frequency := Nat.lt_of_le_of_ne hlt hf
      cases remaining with
      | nil =>
        simp only [List.isEmpty_nil, if_true, Option.some.injEq] at h
        subst h
        refine ⟨List.chain'_cons.2 ⟨hlt', hs2⟩, ?_⟩
        intro hd hhd
        simp only [List.head?_cons, Option.mem_def, Option.some.injEq] at hhd
        subst hhd
        exact Nat.le_succ _
      | cons r rs =>
        simp only [List.isEmpty_cons, if_neg, Option.some.injEq, Bool.false_eq_true,
          not_false_eq_true] at h
        subst h
        refine ⟨List.chain'_cons.2 ⟨Nat.lt_succ_self _, List.chain'_cons.2 ⟨hlt', hs2⟩⟩, ?_⟩
        intro hd hhd
        simp only [List.head?_cons, Option.mem_def, Option.some.injEq] at hhd
        subst hhd
        exact Nat.le_refl _

theorem promoteLocal_buckets {t : Nat} {b : Bucket} {e : Entry}
    {remaining : List Entry} {rest : List Bucket} {bs' : List Bucket}
    (h : promoteLocal t b e remaining rest = some bs')
    (hsub : List.Sublist remaining b.entries)
    (hne : ∀ b' ∈ rest, b'.entries ≠ [])
    (hpos : 1 ≤ b.frequency) (hposR : ∀ b' ∈ rest, 1 ≤ b'.frequency)
    (hrec : (b.entries.map Entry.touch).Chain' (· > ·))
    (hrecR : ∀ b' ∈ rest, (b'.entries.map Entry.touch).Chain' (· > ·))
    (htlt : ∀ x ∈ b.entries, x.touch < t)
    (htltR : ∀ b' ∈ rest, ∀ x ∈ b'.entries, x.touch < t) :
    (∀ b' ∈ bs', b'.entries ≠ []) ∧ (∀ b' ∈ bs', 1 ≤ b'.frequency) ∧
      (∀ b' ∈ bs', (b'.entries.map Entry.touch).Chain' (· > ·)) ∧
      (∀ b' ∈ bs', ∀ x ∈ b'.entries, x.touch < t + 1) := by
  have hrecRem : (remaining.map Entry.touch).Chain' (· > ·) :=
    hrec.sublist (hsub.map Entry.touch)
  have htltRem : ∀ x ∈ remaining, x.touch < t := fun x hx => htlt x (hsub.mem hx)
  cases rest with
  | nil =>
    simp only [promoteLocal] at h
    cases remaining with
    | nil =>
      simp only [List.isEmpty_nil, if_true, Option.some.injEq] at h
      subst h
      refine ⟨?_, ?_, ?_, ?_⟩ <;> intro b' hb' <;>
        simp only [List.mem_singleton] at hb' <;> subst hb'
      · simp
      · exact Nat.le_add_right_of_le hpos
      · simp
      · intro x hx
        simp only [List.mem_singleton] at hx
        subst hx
        exact Nat.lt_succ_self t
    | cons r rs =>
      simp only [List.isEmpty_cons, if_neg, Option.some.injEq, Bool.false_eq_true,
        not_false_eq_true] at h
      subst h
      refine ⟨?_, ?_, ?_, ?_⟩ <;> intro b' hb' <;>
        rcases List.mem_cons.1 hb' with rfl | hb2 <;>
        try (simp only [List.mem_singleton] at hb2; subst hb2)
      · simp
      · simp
      · exact hpos
      · exact Nat.le_add_right_of_le hpos
      · exact hrecRem
      · simp
      · intro x hx
        exact Nat.lt_succ_of_lt (htltRem x hx)
      · intro x hx
        simp only [List.mem_singleton] at hx
        subst hx
        exact Nat.lt_succ_self t
  | cons nb rest2 =>
    simp only [promoteLocal] at h
    by_cases hf : b.frequency + 1 = nb.frequency
    · rw [if_pos hf] at h
      cases hnbe : nb.entries with
      | nil => rw [addFrontByFreq, hnbe] at h; cases h
      | cons x xs =>
        rw [addFrontByFreq, hnbe] at h
        have hnb2ne : (⟨nb.frequency, ⟨e.key, e.value, t⟩ :: x :: xs⟩ : Bucket).entries ≠ [] := by
          simp
        have hnb2pos : 1 ≤ nb.frequency := hposR nb (List.mem_cons_self nb rest2)
        have hnb2rec :
            ((⟨nb.frequency, ⟨e.key, e.value, t⟩ :: x :: xs⟩ : Bucket).entries.map
              Entry.touch).Chain' (· > ·) := by
          have hxs : ((x :: xs).map Entry.touch).Chain' (· > ·) := by
            have := hrecR nb (List.mem_cons_self nb rest2)
            rwa [hnbe] at this
          refine List.chain'_cons.2 ⟨?_, hxs⟩
          have hx : x ∈ nb.entries := by rw [hnbe]; exact List.mem_cons_self x xs
          exact htltR nb (List.mem_cons_self nb rest2) x hx
        have hnb2t :
            ∀ y ∈ (⟨nb.frequency, ⟨e.key, e.value, t⟩ :: x :: xs⟩ : Bucket).entries,
              y.touch < t + 1 := by
          intro y hy
          rcases List.mem_cons.1 hy with rfl | hy2
          · exact Nat.lt_succ_self t
          · refine Nat.lt_succ_of_lt ?_
            have : y ∈ nb.entries := by rw [hnbe]; exact hy2
            exact htltR nb (List.mem_cons_self nb rest2) y this
        have hR2 : ∀ b' ∈ rest2, b'.entries ≠ [] ∧ 1 ≤ b'.frequency ∧
            (b'.entries.map Entry.touch).Chain' (· > ·) ∧
            ∀ y ∈ b'.entries, y.touch < t + 1 := by
          intro b' hb'
          have hm : b' ∈ nb :: rest2 := List.mem_cons_of_mem nb hb'
          exact ⟨hne b' hm, hposR b' hm, hrecR b' hm,
            fun y hy => Nat.lt_succ_of_lt (htltR b' hm y hy)⟩
        cases remaining with
        | nil =>
          simp only [List.isEmpty_nil, if_true, Option.map_some', Option.some.injEq] at h
          subst h
          refine ⟨?_, ?_, ?_, ?_⟩ <;> intro b' hb' <;>
            rcases List.mem_cons.1 hb' with rfl | hb2
          · exact hnb2ne
          · exact (hR2 b' hb2).1
          · exact hnb2pos
          · exact (hR2 b' hb2).2.1
          · exact hnb2rec
          · exact (hR2 b' hb2).2.2.1
          · exact hnb2t
          · exact (hR2 b' hb2).2.2.2
        | cons r rs =>
          simp only [List.isEmpty_cons, if_neg, Bool.false_eq_true, not_false_eq_true,
            Option.map_some', Option.some.injEq] at h
          subst h
          refine ⟨?_, ?_, ?_, ?_⟩ <;> intro b' hb' <;>
            rcases List.mem_cons.1 hb' with rfl | hb2 <;>
            try rcases List.mem_cons.1 hb2 with rfl | hb3
          · simp
          · exact hnb2ne
          · exact (hR2 b' hb3).1
          · exact hpos
          · exact hnb2pos
          · exact (hR2 b' hb3).2.1
          · exact hrecRem
          · exact hnb2rec
          · exact (hR2 b' hb3).2.2.1
          · intro y hy
            exact Nat.lt_succ_of_lt (htltRem y hy)
          · exact hnb2t
          · exact (hR2 b' hb3).2.2.2
    · rw [if_neg hf] at h
      have hR1 : ∀ b' ∈ nb :: rest2, b'.entries ≠ [] ∧ 1 ≤ b'.frequency ∧
          (b'.entries.map Entry.touch).Chain' (· > ·) ∧
          ∀ y ∈ b'.entries, y.touch < t + 1 := by
        intro b' hm
        exact ⟨hne b' hm, hposR b' hm, hrecR b' hm,
          fun y hy => Nat.lt_succ_of_lt (htltR b' hm y hy)⟩
      cases remaining with
      | nil =>
        simp only [List.isEmpty_nil, if_true, Option.some.injEq] at h
        subst h
        refine ⟨?_, ?_, ?_, ?_⟩ <;> intro b' hb' <;>
          rcases List.mem_cons.1 hb' with rfl | hb2
        · simp
        · exact (hR1 b' hb2).1
        · exact Nat.le_add_right_of_le hpos
        · exact (hR1 b' hb2).2.1
        · simp
        · exact (hR1 b' hb2).2.2.1
        · intro y hy
          simp only [List.mem_singleton] at hy
          subst hy
          exact Nat.lt_succ_self t
        · exact (hR1 b' hb2).2.2.2
      | cons r rs =>
        simp only [List.isEmpty_cons, if_neg, Option.some.injEq, Bool.false_eq_true,
          not_false_eq_true] at h
        subst h
        refine ⟨?_, ?_, ?_, ?_⟩ <;> intro b' hb' <;>
          rcases List.mem_cons.1 hb' with rfl | hb2 <;>
          try rcases List.mem_cons.1 hb2 with rfl | hb3
        · simp
        · simp
        · exact (hR1 b' hb3).1
        · exact hpos
        · exact Nat.le_add_right_of_le hpos
        · exact (hR1 b' hb3).2.1
        · exact hrecRem
        · simp
        · exact (hR1 b' hb3).2.2.1
        · intro y hy
          exact Nat.lt_succ_of_lt (htltRem y hy)
        · intro y hy
          simp only [List.mem_singleton] at hy
          subst hy
          exact Nat.lt_succ_self t
        · exact (hR1 b' hb3).2.2.2

theorem find?_pair_map {k f : Nat} {es : List Entry} :
    (es.map (fun e => (e, f))).find? (fun p => p.1.key == k) =
      (es.find? (fun e => e.key == k)).map (fun e => (e, f)) := by
  rw [List.find?_map]; rfl

theorem eraseP_pair_map {k f : Nat} {es : List Entry} :
    (es.map (fun e => (e, f))).eraseP (fun p => p.1.key == k) =
      (es.eraseP (fun e => e.key == k)).map (fun e => (e, f)) := by
  rw [List.eraseP_map]; rfl

theorem erasePk_append {k : Nat} {l₁ l₂ : List (Entry × Nat)} {x : Entry × Nat}
    (hx : x ∈ l₁) (hk : x.1.key = k) :
    (l₁ ++ l₂).eraseP (fun p => p.1.key == k) =
      l₁.eraseP (fun p => p.1.key == k) ++ l₂ := by
  refine List.eraseP_append_left ?_ _ hx
  simpa using hk

theorem findEntryFreq_cons {k : Nat} {b : Bucket} {rest : List Bucket} :
    findEntryFreq (b :: rest) k =
      ((b.entries.find? (fun e => e.key == k)).map (fun e => (e, b.frequency))).or
        (findEntryFreq rest k) := by
  unfold findEntryFreq
  rw [chainEntries_cons, List.find?_append, find?_pair_map]

theorem promote_isSome {k t : Nat} : ∀ {bs : List Bucket},
    (∀ b ∈ bs, b.entries ≠ []) → k ∈ chainKeys bs → (promote k t bs).isSome := by
  intro bs
  induction bs with
  | nil => intro _ hk; simp [chainKeys] at hk
  | cons b rest ih =>
    intro hne hk
    cases hfind : b.entries.find? (fun e => e.key == k) with
    | none =>
      have hnotin : k ∉ bucketKeys b := by
        rw [List.find?_eq_none] at hfind
        intro hmem
        obtain ⟨x, hx, hkey⟩ := List.mem_map.1 hmem
        exact hfind x hx (by simp [hkey])
      have hk' : k ∈ chainKeys rest := by
        rcases List.mem_append.1 (by simpa using hk) with h1 | h2
        · exact absurd h1 hnotin
        · exact h2
      have := ih (fun b' hb' => hne b' (List.mem_cons_of_mem b hb')) hk'
      simp only [promote, hfind]
      simpa using this
    | some e =>
      simp only [promote, hfind]
      exact promoteLocal_isSome (fun b' hb' => hne b' (List.mem_cons_of_mem b hb'))

theorem promote_perm {k t : Nat} : ∀ {bs bs' : List Bucket},
    promote k t bs = some bs' →
    ∃ e f, findEntryFreq bs k = some (e, f) ∧ e.key = k ∧
      List.Perm (chainEntries bs')
        ((⟨e.key, e.value, t⟩, f + 1) ::
          (chainEntries bs).eraseP (fun p => p.1.key == k)) := by
  intro bs
  induction bs with
  | nil => intro bs' h; cases h
  | cons b rest ih =>
    intro bs' h
    cases hfind : b.entries.find? (fun e => e.key == k) with
    | none =>
      simp only [promote, hfind] at h
      obtain ⟨r, hr, rfl⟩ := Option.map_eq_some'.1 h
      obtain ⟨e, f, hfe, hek, hperm⟩ := ih hr
      refine ⟨e, f, ?_, hek, ?_⟩
      · rw [findEntryFreq_cons, hfind]
        simpa using hfe
      · have hnom : ∀ p ∈ b.entries.map (fun e => (e, b.frequency)),
            ¬ ((fun p => p.1.key == k) p = true) := by
          intro p hp
          obtain ⟨x, hx, rfl⟩ := List.mem_map.1 hp
          rw [List.find?_eq_none] at hfind
          exact hfind x hx
        simp only [chainEntries_cons]
        rw [List.eraseP_append_right _ hnom]
        refine List.Perm.trans (hperm.append_left _) ?_
        exact List.perm_middle
    | some e =>
      simp only [promote, hfind] at h
      have hek : e.key = k := by
        have := List.find?_some hfind
        simpa using this
      have hmem : e ∈ b.entries := List.mem_of_find?_eq_some hfind
      refine ⟨e, b.frequency, ?_, hek, ?_⟩
      · rw [findEntryFreq_cons, hfind]
        rfl
      · have hperm := promoteLocal_perm h
        have hmemp : (e, b.frequency) ∈ b.entries.map (fun x => (x, b.frequency)) :=
          List.mem_map_of_mem _ hmem
        simp only [chainEntries_cons]
        rw [erasePk_append hmemp hek, eraseP_pair_map]
        exact hperm

theorem promote_sorted {k t : Nat} : ∀ {bs bs' : List Bucket},
    promote k t bs = some bs' → (bs.map Bucket.frequency).Chain' (· < ·) →
    (bs'.map Bucket.frequency).Chain' (· < ·) ∧
      ∀ a ∈ bs.head?, ∀ a' ∈ bs'.head?, a.frequency ≤ a'.frequency := by
  intro bs
  induction bs with
  | nil => intro bs' h; cases h
  | cons b rest ih =>
    intro bs' h hs
    cases hfind : b.entries.find? (fun e => e.key == k) with
    | none =>
      simp only [promote, hfind] at h
      obtain ⟨r, hr, rfl⟩ := Option.map_eq_some'.1 h
      have hs2 : (rest.map Bucket.frequency).Chain' (· < ·) :=
        (List.chain'_cons'.1 (by simpa using hs)).2
      obtain ⟨hr1, hr2⟩ := ih hr hs2
      refine ⟨?_, ?_⟩
      · rw [List.map_cons]
        refine List.chain'_cons'.2 ⟨?_, hr1⟩
        intro y hy
        cases r with
        | nil => simp at hy
        | cons rb rrest =>
          simp only [List.map_cons, List.head?_cons, Option.mem_def,
            Option.some.injEq] at hy
          subst hy
          cases rest with
          | nil => cases hr
          | cons b2 rest2 =>
            have hblt : b.frequency < b2.frequency := by
              have := (List.chain'_cons.1 (by simpa using hs)).1
              exact this
            have hle : b2.frequency ≤ rb.frequency := by
              have := hr2 b2 (by simp) rb (by simp)
              exact this
            exact Nat.lt_of_lt_of_le hblt hle
      · intro a ha a' ha'
        simp only [List.head?_cons, Option.mem_def, Option.some.injEq] at ha ha'
        subst ha
        subst ha'
        exact Nat.le_refl _
    | some e =>
      simp only [promote, hfind] at h
      obtain ⟨h1, h2⟩ := promoteLocal_sorted h hs
      refine ⟨h1, ?_⟩
      intro a ha a' ha'
      simp only [List.head?_cons, Option.mem_def, Option.some.injEq] at ha
      subst ha
      exact h2 a' ha'

theorem promote_buckets {k t : Nat} : ∀ {bs bs' : List Bucket},
    promote k t bs = some bs' →
    (∀ b ∈ bs, b.entries ≠ []) → (∀ b ∈ bs, 1 ≤ b.frequency) →
    (∀ b ∈ bs, (b.entries.map Entry.touch).Chain' (· > ·)) →
    (∀ b ∈ bs, ∀ x ∈ b.entries, x.touch < t) →
    (∀ b ∈ bs', b.entries ≠ []) ∧ (∀ b ∈ bs', 1 ≤ b.frequency) ∧
      (∀ b ∈ bs', (b.entries.map Entry.touch).Chain' (· > ·)) ∧
      (∀ b ∈ bs', ∀ x ∈ b.entries, x.touch < t + 1) := by
  intro bs
  induction bs with
  | nil => intro bs' h; cases h
  | cons b rest ih =>
    intro bs' h hne hpos hrec htlt
    cases hfind : b.entries.find? (fun e => e.key == k) with
    | none =>
      simp only [promote, hfind] at h
      obtain ⟨r, hr, rfl⟩ := Option.map_eq_some'.1 h
      obtain ⟨hr1, hr2, hr3, hr4⟩ := ih hr
        (fun b' hb' => hne b' (List.mem_cons_of_mem b hb'))
        (fun b' hb' => hpos b' (List.mem_cons_of_mem b hb'))
        (fun b' hb' => hrec b' (List.mem_cons_of_mem b hb'))
        (fun b' hb' => htlt b' (List.mem_cons_of_mem b hb'))
      have hbm : b ∈ b :: rest := List.mem_cons_self b rest
      refine ⟨?_, ?_, ?_, ?_⟩ <;> intro b' hb' <;>
        rcases List.mem_cons.1 hb' with rfl | hb2
      · exact hne b' hbm
      · exact hr1 b' hb2
      · exact hpos b' hbm
      · exact hr2 b' hb2
      · exact hrec b' hbm
      · exact hr3 b' hb2
      · intro x hx
        exact Nat.lt_succ_of_lt (htlt b' hbm x hx)
      · exact hr4 b' hb2
    | some e =>
      simp only [promote, hfind] at h
      have hbm : b ∈ b :: rest := List.mem_cons_self b rest
      exact promoteLocal_buckets h (List.eraseP_sublist _)
        (fun b' hb' => hne b' (List.mem_cons_of_mem b hb'))
        (hpos b hbm)
        (fun b' hb' => hpos b' (List.mem_cons_of_mem b hb'))
        (hrec b hbm)
        (fun b' hb' => hrec b' (List.mem_cons_of_mem b hb'))
        (htlt b hbm)
        (fun b' hb' => htlt b' (List.mem_cons_of_mem b hb'))

/-! ## Lookup facts and the `Get` specification -/

theorem findEntryFreq_unique {bs : List Bucket} {k : Nat} {e : Entry} {f : Nat}
    (hnd : (chainKeys bs).Nodup) (hmem : (e, f) ∈ chainEntries bs) (hk : e.key = k) :
    findEntryFreq bs k = some (e, f) := by
  have hnd' : ((chainEntries bs).map (fun p => p.1.key)).Nodup := by
    rwa [← chainKeys_eq_map]
  exact find?_key_unique (fun p => p.1.key) hnd' hmem hk

theorem findEntryFreq_isSome {bs : List Bucket} {k : Nat} (hk : k ∈ chainKeys bs) :
    (findEntryFreq bs k).isSome := by
  rw [chainKeys_eq_map] at hk
  obtain ⟨p, hp, hkey⟩ := List.mem_map.1 hk
  rw [findEntryFreq, List.find?_isSome]
  exact ⟨p, hp, by simpa using hkey⟩

theorem mem_chainKeys_of_findEntryFreq {bs : List Bucket} {k : Nat} {e : Entry} {f : Nat}
    (h : findEntryFreq bs k = some (e, f)) : e.key = k ∧ (e, f) ∈ chainEntries bs := by
  refine ⟨by simpa using List.find?_some h, List.mem_of_find?_eq_some h⟩

theorem promote_chainKeys_perm {k t : Nat} {bs bs' : List Bucket}
    (h : promote k t bs = some bs') : List.Perm (chainKeys bs') (chainKeys bs) := by
  obtain ⟨e, f, hfe, hek, hperm⟩ := promote_perm h
  have h1 : List.Perm (chainEntries bs)
      ((e, f) :: (chainEntries bs).eraseP (fun p => p.1.key == k)) :=
    perm_cons_eraseP_of_find? hfe
  rw [chainKeys_eq_map, chainKeys_eq_map]
  refine (hperm.map _).trans ?_
  refine List.Perm.trans ?_ ((h1.map (fun p => p.1.key)).symm)
  simp [hek]

theorem get_miss {c : CacheImpl} {k : Nat} (h : k ∉ c.mpKeys) :
    Get c k = some (none, c) := by
  simp [Get, h]

theorem get_hit_spec {c : CacheImpl} {k : Nat} (hInv : Inv c) (hk : k ∈ c.mpKeys) :
    ∃ e f c', findEntryFreq c.buckets k = some (e, f) ∧ e.key = k ∧
      Get c k = some (some e.value, c') ∧
      c'.mpKeys = c.mpKeys ∧ c'.capacity = c.capacity ∧ c'.clock = c.clock + 1 ∧
      Inv c' ∧
      List.Perm (chainEntries c'.buckets)
        ((⟨e.key, e.value, c.clock⟩, f + 1) ::
          (chainEntries c.buckets).eraseP (fun p => p.1.key == k)) ∧
      findEntryFreq c'.buckets k = some (⟨e.key, e.value, c.clock⟩, f + 1) := by
  have hkc : k ∈ chainKeys c.buckets := (hInv.mp_perm.mem_iff).1 hk
  have hsome := @promote_isSome k c.clock c.buckets hInv.buckets_ne hkc
  obtain ⟨bs', hbs'⟩ := Option.isSome_iff_exists.1 hsome
  obtain ⟨p, hp⟩ := Option.isSome_iff_exists.1 (findEntryFreq_isSome hkc)
  obtain ⟨e, f⟩ := p
  obtain ⟨hek, _⟩ := mem_chainKeys_of_findEntryFreq hp
  obtain ⟨e1, f1, hfe1, _, hperm⟩ := promote_perm hbs'
  rw [hp] at hfe1
  have hef : e = e1 ∧ f = f1 := by simpa [Prod.ext_iff] using hfe1
  obtain ⟨he1, hf1⟩ := hef
  subst he1
  subst hf1
  have hfv : findValue c.buckets k = some e.value := by rw [findValue, hp]; rfl
  have hget : Get c k = some (some e.value, ⟨c.capacity, bs', c.mpKeys, c.clock + 1⟩) := by
    unfold Get
    rw [if_pos hk, hfv, hbs']
  have hmpperm' : List.Perm c.mpKeys (chainKeys bs') :=
    hInv.mp_perm.trans (promote_chainKeys_perm hbs').symm
  have hnd' : (chainKeys bs').Nodup := hInv.mp_nodup.perm hmpperm'
  obtain ⟨hb1, hb2, hb3, hb4⟩ :=
    promote_buckets hbs' hInv.buckets_ne hInv.freq_pos hInv.recency hInv.touch_lt
  have hInv' : Inv ⟨c.capacity, bs', c.mpKeys, c.clock + 1⟩ :=
    { mp_nodup := hInv.mp_nodup
      mp_perm := hmpperm'
      sorted := (promote_sorted hbs' hInv.sorted).1
      freq_pos := hb2
      buckets_ne := hb1
      touch_lt := hb4
      recency := hb3
      size_bound := hInv.size_bound }
  refine ⟨e, f, ⟨c.capacity, bs', c.mpKeys, c.clock + 1⟩, hp, hek, hget,
    rfl, rfl, rfl, hInv', hperm, ?_⟩
  refine findEntryFreq_unique hnd' ?_ hek
  exact hperm.symm.subset (List.mem_cons_self _ _)

theorem inv_get {c : CacheImpl} {k : Nat} {r : Option Int} {c' : CacheImpl}
    (hInv : Inv c) (h : Get c k = some (r, c')) : Inv c' := by
  by_cases hk : k ∈ c.mpKeys
  · obtain ⟨e, f, c'', _, _, hget, _, _, _, hInv'', _, _⟩ := get_hit_spec hInv hk
    rw [h] at hget
    have : c' = c'' := by
      have := hget
      simp only [Option.some.injEq, Prod.mk.injEq] at this
      exact this.2
    rw [this]
    exact hInv''
  · rw [get_miss hk] at h
    have : c' = c := by
      simp only [Option.some.injEq, Prod.mk.injEq] at h
      exact h.2.symm
    rw [this]
    exact hInv

/-! ## Properties of eviction (`delLast`) -/

theorem mem_chainEntries {bs : List Bucket} {p : Entry × Nat} :
    p ∈ chainEntries bs ↔ ∃ b ∈ bs, p.1 ∈ b.entries ∧ p.2 = b.frequency := by
  induction bs with
  | nil => simp
  | cons b rest ih =>
    simp only [chainEntries_cons, List.mem_append, List.mem_map, ih, List.mem_cons]
    constructor
    · rintro (⟨e, he, rfl⟩ | ⟨b2, hb2, h1, h2⟩)
      · exact ⟨b, Or.inl rfl, he, rfl⟩
      · exact ⟨b2, Or.inr hb2, h1, h2⟩
    · rintro ⟨b2, hb2 | hb2, h1, h2⟩
      · subst hb2
        exact Or.inl ⟨p.1, h1, by rw [← h2]⟩
      · exact Or.inr ⟨b2, hb2, h1, h2⟩

theorem getLast_touch_min {es : List Entry} {e : Entry}
    (hrec : (es.map Entry.touch).Chain' (· > ·)) (he : es.getLast? = some e) :
    ∀ x ∈ es, e.touch ≤ x.touch := by
  obtain ⟨ys, rfl⟩ := List.getLast?_eq_some_iff.1 he
  have hpw : (ys.map Entry.touch ++ [e.touch]).Pairwise (· > ·) := by
    have := List.chain'_iff_pairwise.1 hrec
    simpa using this
  rw [List.pairwise_append] at hpw
  intro x hx
  rcases List.mem_append.1 hx with hx1 | hx2
  · exact Nat.le_of_lt (hpw.2.2 x.touch (List.mem_map_of_mem _ hx1) e.touch (by simp))
  · simp only [List.mem_singleton] at hx2
    subst hx2
    exact Nat.le_refl _

theorem front_freq_min {c : CacheImpl} {b : Bucket} {rest : List Bucket}
    (hInv : Inv c) (hb : c.buckets = b :: rest) :
    ∀ p ∈ chainEntries c.buckets, b.frequency ≤ p.2 := by
  intro p hp
  obtain ⟨b2, hb2, _, hfr⟩ := mem_chainEntries.1 hp
  rw [hb] at hb2
  rcases List.mem_cons.1 hb2 with rfl | hb3
  · exact Nat.le_of_eq hfr.symm
  · have hsorted := hInv.sorted
    rw [hb, List.map_cons] at hsorted
    have hpw := List.chain'_iff_pairwise.1 hsorted
    have : b.frequency < b2.frequency :=
      (List.pairwise_cons.1 hpw).1 b2.frequency (List.mem_map_of_mem _ hb3)
    rw [hfr]
    exact Nat.le_of_lt this

theorem front_tail_touch_min {c : CacheImpl} {b : Bucket} {rest : List Bucket} {e : Entry}
    (hInv : Inv c) (hb : c.buckets = b :: rest) (he : b.entries.getLast? = some e) :
    ∀ p ∈ chainEntries c.buckets, p.2 = b.frequency → e.touch ≤ p.1.touch := by
  intro p hp hfr
  obtain ⟨b2, hb2, hmem, hfr2⟩ := mem_chainEntries.1 hp
  rw [hb] at hb2
  rcases List.mem_cons.1 hb2 with rfl | hb3
  · have hrec : (b2.entries.map Entry.touch).Chain' (· > ·) := by
      refine hInv.recency b2 ?_
      rw [hb]; exact List.mem_cons_self _ _
    exact getLast_touch_min hrec he p.1 hmem
  · exfalso
    have hsorted := hInv.sorted
    rw [hb, List.map_cons] at hsorted
    have hpw := List.chain'_iff_pairwise.1 hsorted
    have hlt : b.frequency < b2.frequency :=
      (List.pairwise_cons.1 hpw).1 b2.frequency (List.mem_map_of_mem _ hb3)
    rw [← hfr2, hfr] at hlt
    exact Nat.lt_irrefl _ hlt

theorem delLast_nil {c : CacheImpl} (h : c.buckets = []) : delLast c = some c := by
  simp [delLast, h]

theorem delLast_cons_spec {c : CacheImpl} {b : Bucket} {rest : List Bucket}
    (hInv : Inv c) (hb : c.buckets = b :: rest) :
    ∃ e c', b.entries.getLast? = some e ∧ delLast c = some c' ∧
      e.key ∈ c.mpKeys ∧
      c'.mpKeys = c.mpKeys.erase e.key ∧ c'.capacity = c.capacity ∧
      c'.clock = c.clock ∧
      chainEntries c'.buckets =
        b.entries.dropLast.map (fun x => (x, b.frequency)) ++ chainEntries rest ∧
      Inv c' ∧ Size c' + 1 = Size c := by
  have hbne : b.entries ≠ [] := by
    refine hInv.buckets_ne b ?_
    rw [hb]; exact List.mem_cons_self _ _
  obtain ⟨e, he⟩ := Option.isSome_iff_exists.1 (by
    rw [List.getLast?_isSome]; exact hbne)
  obtain ⟨ys, hys⟩ := List.getLast?_eq_some_iff.1 he
  have hdrop : b.entries.dropLast = ys := by rw [hys]; exact List.dropLast_concat
  have hpair : ((e, b.frequency) : Entry × Nat) ∈ chainEntries c.buckets := by
    refine mem_chainEntries.2 ⟨b, ?_, ?_, rfl⟩
    · rw [hb]; exact List.mem_cons_self _ _
    · rw [hys]; exact List.mem_append.2 (Or.inr (by simp))
  have hekc : e.key ∈ chainKeys c.buckets := by
    rw [chainKeys_eq_map]
    exact List.mem_map_of_mem _ hpair
  have hekm : e.key ∈ c.mpKeys := (hInv.mp_perm.mem_iff).2 hekc
  -- keys of the front bucket split around the evicted key
  have hchainkeys : chainKeys c.buckets =
      ys.map Entry.key ++ (e.key :: chainKeys rest) := by
    rw [hb, chainKeys_cons, bucketKeys, hys]
    simp [List.append_assoc]
  have heky : e.key ∉ ys.map Entry.key := by
    have hnd := chainKeys_nodup hInv
    rw [hchainkeys] at hnd
    have := (List.nodup_append.1 hnd).2.2
    intro hmem
    exact this hmem (List.mem_cons_self _ _)
  have herase : (chainKeys c.buckets).erase e.key = ys.map Entry.key ++ chainKeys rest := by
    rw [hchainkeys, List.erase_append_right _ heky, List.erase_cons_head]
  have hperm' : List.Perm (c.mpKeys.erase e.key) (ys.map Entry.key ++ chainKeys rest) := by
    rw [← herase]
    exact hInv.mp_perm.erase e.key
  have hnd' : (c.mpKeys.erase e.key).Nodup := hInv.mp_nodup.erase e.key
  have hszeq : (c.mpKeys.erase e.key).length + 1 = c.mpKeys.length := by
    rw [List.length_erase_of_mem hekm]
    exact Nat.succ_pred_eq_of_pos (List.length_pos_of_mem hekm)
  have hszle : (c.mpKeys.erase e.key).length ≤ max c.capacity 1 :=
    Nat.le_trans (List.length_erase_le _ _) hInv.size_bound
  by_cases hlen : b.entries.length ≤ 1
  · -- the front bucket held a single entry and is unlinked
    have hys0 : ys = [] := by
      rw [hys] at hlen
      simp only [List.length_append, List.length_singleton] at hlen
      exact List.length_eq_zero.1 (by omega)
    have hdel : delLast c = some ⟨c.capacity, rest, c.mpKeys.erase e.key, c.clock⟩ := by
      simp [delLast, hb, he, hlen]
    refine ⟨e, _, he, hdel, hekm, rfl, rfl, rfl, ?_, ?_, ?_⟩
    · simp [hdrop, hys0]
    · have hrestmem : ∀ b' ∈ rest, b' ∈ c.buckets := by
        intro b' hb'
        rw [hb]; exact List.mem_cons_of_mem _ hb'
      refine
        { mp_nodup := hnd'
          mp_perm := by
            refine hperm'.trans ?_
            rw [hys0]
            simp
          sorted := ?_
          freq_pos := fun b' hb' => hInv.freq_pos b' (hrestmem b' hb')
          buckets_ne := fun b' hb' => hInv.buckets_ne b' (hrestmem b' hb')
          touch_lt := fun b' hb' => hInv.touch_lt b' (hrestmem b' hb')
          recency := fun b' hb' => hInv.recency b' (hrestmem b' hb')
          size_bound := hszle }
      have hsorted := hInv.sorted
      rw [hb, List.map_cons] at hsorted
      exact (List.chain'_cons'.1 hsorted).2
    · simpa [Size] using hszeq
  · -- the front bucket keeps its remaining entries
    have hysne : ys ≠ [] := by
      intro h0
      rw [hys, h0] at hlen
      simp at hlen
    have hdel : delLast c =
        some ⟨c.capacity, ⟨b.frequency, b.entries.dropLast⟩ :: rest,
          c.mpKeys.erase e.key, c.clock⟩ := by
      simp [delLast, hb, he, hlen]
    refine ⟨e, _, he, hdel, hekm, rfl, rfl, rfl, ?_, ?_, ?_⟩
    · simp [hdrop]
    · have hrestmem : ∀ b' ∈ rest, b' ∈ c.buckets := by
        intro b' hb'
        rw [hb]; exact List.mem_cons_of_mem _ hb'
      have hbm : b ∈ c.buckets := by rw [hb]; exact List.mem_cons_self _ _
      refine
        { mp_nodup := hnd'
          mp_perm := by
            refine hperm'.trans ?_
            rw [chainKeys_cons, bucketKeys, hdrop]
          sorted := ?_
          freq_pos := ?_
          buckets_ne := ?_
          touch_lt := ?_
          recency := ?_
          size_bound := hszle }
      · have hsorted := hInv.sorted
        rw [hb] at hsorted
        exact hsorted
      · intro b' hb'
        rcases List.mem_cons.1 hb' with rfl | hb2
        · exact hInv.freq_pos b hbm
        · exact hInv.freq_pos b' (hrestmem b' hb2)
      · intro b' hb'
        rcases List.mem_cons.1 hb' with rfl | hb2
        · rw [hdrop]
          exact hysne
        · exact hInv.buckets_ne b' (hrestmem b' hb2)
      · intro b' hb'
        rcases List.mem_cons.1 hb' with rfl | hb2
        · intro x hx
          refine hInv.touch_lt b hbm x ?_
          exact (List.dropLast_sublist _).mem hx
        · exact hInv.touch_lt b' (hrestmem b' hb2)
      · intro b' hb'
        rcases List.mem_cons.1 hb' with rfl | hb2
        · exact (hInv.recency b hbm).sublist ((List.dropLast_sublist _).map _)
        · exact hInv.recency b' (hrestmem b' hb2)
    · simpa [Size] using hszeq

theorem delLast_isSome {c : CacheImpl} (hInv : Inv c) : (delLast c).isSome := by
  cases hb : c.buckets with
  | nil => rw [delLast_nil hb]; rfl
  | cons b rest =>
    obtain ⟨e, c', _, hdel, _⟩ := delLast_cons_spec hInv hb
    rw [hdel]; rfl

/-! ## Properties of `setValue` and insertion -/

theorem setValue_chainEntries {bs : List Bucket} {k : Nat} {v : Int} :
    chainEntries (setValue bs k v) = (chainEntries bs).map
      (fun p => if p.1.key == k then (⟨p.1.key, v, p.1.touch⟩, p.2) else p) := by
  induction bs with
  | nil => rfl
  | cons b rest ih =>
    simp only [setValue, List.map_cons, chainEntries_cons, List.map_append, List.map_map]
    rw [← setValue, ih]
    congr 1
    refine List.map_congr_left ?_
    intro e _
    simp only [Function.comp]
    split <;> rfl

theorem setValue_chainKeys {bs : List Bucket} {k : Nat} {v : Int} :
    chainKeys (setValue bs k v) = chainKeys bs := by
  rw [chainKeys_eq_map, chainKeys_eq_map, setValue_chainEntries, List.map_map]
  refine List.map_congr_left ?_
  intro p _
  simp only [Function.comp]
  split <;> rfl

theorem setValue_value_of_key {bs : List Bucket} {k : Nat} {v : Int} {p : Entry × Nat}
    (hp : p ∈ chainEntries (setValue bs k v)) (hk : p.1.key = k) : p.1.value = v := by
  rw [setValue_chainEntries] at hp
  obtain ⟨q, hq, hqe⟩ := List.mem_map.1 hp
  by_cases hqk : q.1.key == k
  · rw [if_pos hqk] at hqe
    rw [← hqe]
  · rw [if_neg hqk] at hqe
    subst hqe
    exact absurd (by simpa using hk) hqk

theorem setValue_freq_of_key {bs : List Bucket} {k : Nat} {v : Int} {p : Entry × Nat}
    (hp : p ∈ chainEntries (setValue bs k v)) (hk : p.1.key = k) :
    ∃ q ∈ chainEntries bs, q.1.key = k ∧ q.2 = p.2 := by
  rw [setValue_chainEntries] at hp
  obtain ⟨q, hq, hqe⟩ := List.mem_map.1 hp
  by_cases hqk : q.1.key == k
  · rw [if_pos hqk] at hqe
    exact ⟨q, hq, by simpa using hqk, by rw [← hqe]⟩
  · rw [if_neg hqk] at hqe
    subst hqe
    exact ⟨q, hq, hk, rfl⟩

theorem setValue_inv {c : CacheImpl} {k : Nat} {v : Int} (hInv : Inv c) :
    Inv ⟨c.capacity, setValue c.buckets k v, c.mpKeys, c.clock⟩ := by
  have hbmem : ∀ b' ∈ setValue c.buckets k v, ∃ b ∈ c.buckets,
      b'.frequency = b.frequency ∧
      b'.entries = b.entries.map (fun e => if e.key == k then ⟨e.key, v, e.touch⟩ else e) := by
    intro b' hb'
    obtain ⟨b, hb, hbe⟩ := List.mem_map.1 hb'
    exact ⟨b, hb, by rw [← hbe], by rw [← hbe]⟩
  have htch : ∀ b : Bucket,
      (b.entries.map (fun e => if e.key == k then Entry.mk e.key v e.touch else e)).map
        Entry.touch = b.entries.map Entry.touch := by
    intro b
    rw [List.map_map]
    refine List.map_congr_left ?_
    intro e _
    simp only [Function.comp]
    split <;> rfl
  refine
    { mp_nodup := hInv.mp_nodup
      mp_perm := by rw [setValue_chainKeys]; exact hInv.mp_perm
      sorted := ?_
      freq_pos := ?_
      buckets_ne := ?_
      touch_lt := ?_
      recency := ?_
      size_bound := hInv.size_bound }
  · have : (setValue c.buckets k v).map Bucket.frequency = c.buckets.map Bucket.frequency := by
      rw [setValue, List.map_map]
      rfl
    rw [this]
    exact hInv.sorted
  · intro b' hb'
    obtain ⟨b, hb, hfr, _⟩ := hbmem b' hb'
    rw [hfr]
    exact hInv.freq_pos b hb
  · intro b' hb'
    obtain ⟨b, hb, _, hes⟩ := hbmem b' hb'
    rw [hes]
    simp only [ne_eq, List.map_eq_nil_iff]
    exact hInv.buckets_ne b hb
  · intro b' hb' x hx
    obtain ⟨b, hb, _, hes⟩ := hbmem b' hb'
    rw [hes] at hx
    obtain ⟨e, he, hxe⟩ := List.mem_map.1 hx
    have : x.touch = e.touch := by
      by_cases hek : e.key == k
      · rw [if_pos hek] at hxe; rw [← hxe]
      · rw [if_neg hek] at hxe; rw [← hxe]
    rw [this]
    exact hInv.touch_lt b hb e he
  · intro b' hb'
    obtain ⟨b, hb, _, hes⟩ := hbmem b' hb'
    rw [hes, htch b]
    exact hInv.recency b hb

theorem insertNew_spec {c : CacheImpl} {k : Nat} {v : Int} (hInv : Inv c)
    (hk : k ∉ c.mpKeys) (hsz : c.mpKeys.length + 1 ≤ max c.capacity 1) :
    ∃ bs', insertNew c k v = some ⟨c.capacity, bs', k :: c.mpKeys, c.clock + 1⟩ ∧
      chainEntries bs' = (⟨k, v, c.clock⟩, 1) :: chainEntries c.buckets ∧
      Inv ⟨c.capacity, bs', k :: c.mpKeys, c.clock + 1⟩ := by
  have hknotchain : k ∉ chainKeys c.buckets := fun hc => hk (hInv.mp_perm.mem_iff.2 hc)
  have hmp_nodup : (k :: c.mpKeys).Nodup := List.nodup_cons.2 ⟨hk, hInv.mp_nodup⟩
  cases hb : c.buckets with
  | nil =>
    refine ⟨[⟨1, [⟨k, v, c.clock⟩]⟩], by simp [insertNew, hb], by simp, ?_⟩
    have hmpnil : c.mpKeys = [] := by
      have := hInv.mp_perm
      rw [hb] at this
      exact List.Perm.eq_nil (by simpa using this)
    refine
      { mp_nodup := hmp_nodup
        mp_perm := by simp [hmpnil, chainKeys, bucketKeys]
        sorted := by simp
        freq_pos := by intro b' hb'; simp only [List.mem_singleton] at hb'; subst hb'; simp
        buckets_ne := by intro b' hb'; simp only [List.mem_singleton] at hb'; subst hb'; simp
        touch_lt := ?_
        recency := by intro b' hb'; simp only [List.mem_singleton] at hb'; subst hb'; simp
        size_bound := by simpa using hsz }
    intro b' hb' x hx
    simp only [List.mem_singleton] at hb'
    subst hb'
    simp only [List.mem_singleton] at hx
    subst hx
    exact Nat.lt_succ_self _
  | cons fb rest =>
    have hfbmem : fb ∈ c.buckets := by rw [hb]; exact List.mem_cons_self _ _
    have hrestmem : ∀ b' ∈ rest, b' ∈ c.buckets := by
      intro b' hb'
      rw [hb]; exact List.mem_cons_of_mem _ hb'
    by_cases h1 : fb.frequency = 1
    · have hfbne : fb.entries ≠ [] := hInv.buckets_ne fb hfbmem
      cases hfbe : fb.entries with
      | nil => exact absurd hfbe hfbne
      | cons x xs =>
        refine ⟨⟨fb.frequency, ⟨k, v, c.clock⟩ :: fb.entries⟩ :: rest, ?_, ?_, ?_⟩
        · simp [insertNew, hb, h1, addFrontByFreq, hfbe]
        · simp [h1, hb]
        · refine
            { mp_nodup := hmp_nodup
              mp_perm := ?_
              sorted := ?_
              freq_pos := ?_
              buckets_ne := ?_
              touch_lt := ?_
              recency := ?_
              size_bound := by simpa using hsz }
          · have : chainKeys (⟨fb.frequency, ⟨k, v, c.clock⟩ :: fb.entries⟩ :: rest) =
                k :: chainKeys (fb :: rest) := by
              simp [chainKeys_cons, bucketKeys]
            rw [this, ← hb]
            exact hInv.mp_perm.cons k
          · have hsorted := hInv.sorted
            rw [hb] at hsorted
            exact hsorted
          · intro b' hb'
            rcases List.mem_cons.1 hb' with rfl | hb2
            · exact hInv.freq_pos fb hfbmem
            · exact hInv.freq_pos b' (hrestmem b' hb2)
          · intro b' hb'
            rcases List.mem_cons.1 hb' with rfl | hb2
            · simp
            · exact hInv.buckets_ne b' (hrestmem b' hb2)
          · intro b' hb' y hy
            rcases List.mem_cons.1 hb' with rfl | hb2
            · rcases List.mem_cons.1 hy with rfl | hy2
              · exact Nat.lt_succ_self _
              · exact Nat.lt_succ_of_lt (hInv.touch_lt fb hfbmem y hy2)
            · exact Nat.lt_succ_of_lt (hInv.touch_lt b' (hrestmem b' hb2) y hy)
          · intro b' hb'
            rcases List.mem_cons.1 hb' with rfl | hb2
            · refine List.chain'_cons'.2 ⟨?_, hInv.recency fb hfbmem⟩
              intro y hy
              rw [hfbe] at hy
              simp only [List.map_cons, List.head?_cons, Option.mem_def,
                Option.some.injEq] at hy
              subst hy
              have : x ∈ fb.entries := by rw [hfbe]; exact List.mem_cons_self _ _
              exact hInv.touch_lt fb hfbmem x this
            · exact hInv.recency b' (hrestmem b' hb2)
    · refine ⟨⟨1, [⟨k, v, c.clock⟩]⟩ :: fb :: rest, ?_, by simp [hb], ?_⟩
      · simp [insertNew, hb, h1]
      · have h1lt : 1 < fb.frequency :=
          Nat.lt_of_le_of_ne (hInv.freq_pos fb hfbmem) (fun h => h1 h.symm)
        refine
          { mp_nodup := hmp_nodup
            mp_perm := ?_
            sorted := ?_
            freq_pos := ?_
            buckets_ne := ?_
            touch_lt := ?_
            recency := ?_
            size_bound := by simpa using hsz }
        · have : chainKeys (⟨1, [⟨k, v, c.clock⟩]⟩ :: fb :: rest) =
              k :: chainKeys (fb :: rest) := by
            simp [chainKeys_cons, bucketKeys]
          rw [this, ← hb]
          exact hInv.mp_perm.cons k
        · have hsorted := hInv.sorted
          rw [hb] at hsorted
          rw [List.map_cons]
          exact List.chain'_cons'.2 ⟨by
            intro y hy
            rw [List.map_cons, List.head?_cons] at hy
            simp only [Option.mem_def, Option.some.injEq] at hy
            subst hy
            exact h1lt, hsorted⟩
        · intro b' hb'
          rcases List.mem_cons.1 hb' with rfl | hb2
          · simp
          · rcases List.mem_cons.1 hb2 with rfl | hb3
            · exact hInv.freq_pos _ hfbmem
            · exact hInv.freq_pos b' (hrestmem b' hb3)
        · intro b' hb'
          rcases List.mem_cons.1 hb' with rfl | hb2
          · simp
          · rcases List.mem_cons.1 hb2 with rfl | hb3
            · exact hInv.buckets_ne _ hfbmem
            · exact hInv.buckets_ne b' (hrestmem b' hb3)
        · intro b' hb' y hy
          rcases List.mem_cons.1 hb' with rfl | hb2
          · simp only [List.mem_singleton] at hy
            subst hy
            exact Nat.lt_succ_self _
          · rcases List.mem_cons.1 hb2 with rfl | hb3
            · exact Nat.lt_succ_of_lt (hInv.touch_lt _ hfbmem y hy)
            · exact Nat.lt_succ_of_lt (hInv.touch_lt b' (hrestmem b' hb3) y hy)
        · intro b' hb'
          rcases List.mem_cons.1 hb' with rfl | hb2
          · simp
          · rcases List.mem_cons.1 hb2 with rfl | hb3
            · exact hInv.recency _ hfbmem
            · exact hInv.recency b' (hrestmem b' hb3)

/-! ## The `Put` specification -/

theorem put_hit_spec {c : CacheImpl} {k : Nat} {v : Int} (hInv : Inv c)
    (hk : k ∈ c.mpKeys) :
    ∃ f c', GetKeyFrequency c k = some f ∧ Put c k v = some c' ∧ Inv c' ∧
      c'.mpKeys = c.mpKeys ∧ c'.capacity = c.capacity ∧
      findValue c'.buckets k = some v ∧
      GetKeyFrequency c' k = some (f + 1) := by
  have hImid : Inv ⟨c.capacity, setValue c.buckets k v, c.mpKeys, c.clock⟩ :=
    setValue_inv hInv
  obtain ⟨e1, f1, c', hfe1, hek1, hget, hmp', hcap', hclk', hInv', hperm', hfind'⟩ :=
    get_hit_spec hImid hk
  obtain ⟨_, hmem1⟩ := mem_chainKeys_of_findEntryFreq hfe1
  obtain ⟨q, hq, hqk, hqf⟩ := setValue_freq_of_key hmem1 hek1
  have hforig : findEntryFreq c.buckets k = some (q.1, q.2) := by
    refine findEntryFreq_unique (chainKeys_nodup hInv) ?_ hqk
    simpa using hq
  have hGKF : GetKeyFrequency c k = some q.2 := by
    rw [GetKeyFrequency, if_pos hk, hforig]
    rfl
  have he1v : e1.value = v := setValue_value_of_key hmem1 hek1
  have hput : Put c k v = some c' := by
    unfold Put
    rw [if_pos hk, hget]
  have hk' : k ∈ c'.mpKeys := by rw [hmp']; exact hk
  refine ⟨q.2, c', hGKF, hput, hInv', hmp', hcap', ?_, ?_⟩
  · rw [findValue, hfind']
    simp [he1v]
  · rw [GetKeyFrequency, if_pos hk', hfind']
    simp [hqf]

theorem put_new_spec {c : CacheImpl} {k : Nat} {v : Int} (hInv : Inv c)
    (hk : k ∉ c.mpKeys) :
    ∃ c1 c', (if Size c ≥ c.capacity then delLast c else some c) = some c1 ∧
      Put c k v = some c' ∧ insertNew c1 k v = some c' ∧ Inv c1 ∧ Inv c' ∧
      c'.mpKeys = k :: c1.mpKeys ∧ c'.capacity = c.capacity ∧ c'.clock = c1.clock + 1 ∧
      chainEntries c'.buckets = (⟨k, v, c1.clock⟩, 1) :: chainEntries c1.buckets ∧
      k ∉ c1.mpKeys ∧ c1.capacity = c.capacity := by
  by_cases hcap : Size c ≥ c.capacity
  · cases hb : c.buckets with
    | nil =>
      have hmpnil : c.mpKeys = [] := by
        have := hInv.mp_perm
        rw [hb] at this
        exact List.Perm.eq_nil (by simpa using this)
      have hdel : delLast c = some c := delLast_nil hb
      have hsz : c.mpKeys.length + 1 ≤ max c.capacity 1 := by
        rw [hmpnil]
        simp only [List.length_nil, Nat.zero_add]
        exact Nat.le_max_right c.capacity 1
      obtain ⟨bs', hins, hents, hInv'⟩ := insertNew_spec hInv hk hsz
      refine ⟨c, _, by rw [if_pos hcap]; exact hdel, ?_, hins, hInv, hInv', rfl, rfl, rfl,
        hents, hk, rfl⟩
      unfold Put
      rw [if_neg hk, if_pos hcap, hdel]
      exact hins
    | cons b rest =>
      obtain ⟨e, c1, he, hdel, hekm, hmp1, hcap1, hclk1, hents1, hInv1, hsz1⟩ :=
        delLast_cons_spec hInv hb
      have hk1 : k ∉ c1.mpKeys := by
        rw [hmp1]
        intro hmem
        exact hk (List.mem_of_mem_erase hmem)
      have hsz : c1.mpKeys.length + 1 ≤ max c1.capacity 1 := by
        have : Size c1 + 1 = Size c := hsz1
        rw [hcap1]
        calc c1.mpKeys.length + 1 = c.mpKeys.length := this
        _ ≤ max c.capacity 1 := hInv.size_bound
      obtain ⟨bs', hins, hents, hInv'⟩ := insertNew_spec hInv1 hk1 hsz
      refine ⟨c1, _, by rw [if_pos hcap]; exact hdel, ?_, hins, hInv1, hInv', rfl, ?_,
        rfl, hents, hk1, hcap1⟩
      · unfold Put
        rw [if_neg hk, if_pos hcap, hdel]
        exact hins
      · exact hcap1
  · have hsz : c.mpKeys.length + 1 ≤ max c.capacity 1 := by
      have hlt : Size c < c.capacity := Nat.lt_of_not_le hcap
      exact Nat.le_trans hlt (Nat.le_max_left _ _)
    obtain ⟨bs', hins, hents, hInv'⟩ := insertNew_spec hInv hk hsz
    refine ⟨c, _, by rw [if_neg hcap], ?_, hins, hInv, hInv', rfl, rfl, rfl, hents, hk, rfl⟩
    unfold Put
    rw [if_neg hk, if_neg hcap]
    exact hins

theorem inv_put {c : CacheImpl} {k : Nat} {v : Int} {c' : CacheImpl}
    (hInv : Inv c) (h : Put c k v = some c') : Inv c' := by
  by_cases hk : k ∈ c.mpKeys
  · obtain ⟨f, c'', _, hput, hInv'', _⟩ := @put_hit_spec c k v hInv hk
    rw [h] at hput
    cases hput
    exact hInv''
  · obtain ⟨c1, c'', _, hput, _, _, hInv'', _⟩ := @put_new_spec c k v hInv hk
    rw [h] at hput
    cases hput
    exact hInv''

theorem put_isSome {c : CacheImpl} {k : Nat} {v : Int} (hInv : Inv c) :
    (Put c k v).isSome := by
  by_cases hk : k ∈ c.mpKeys
  · obtain ⟨f, c'', _, hput, _⟩ := @put_hit_spec c k v hInv hk
    rw [hput]
    rfl
  · obtain ⟨c1, c'', _, hput, _⟩ := @put_new_spec c k v hInv hk
    rw [hput]
    rfl

/-! ## Reachability -/

theorem inv_empty (cap : Nat) : Inv ⟨cap, [], [], 0⟩ :=
  { mp_nodup := List.nodup_nil
    mp_perm := List.Perm.nil
    sorted := List.chain'_nil
    freq_pos := fun b hb => absurd hb (List.not_mem_nil b)
    buckets_ne := fun b hb => absurd hb (List.not_mem_nil b)
    touch_lt := fun b hb => absurd hb (List.not_mem_nil b)
    recency := fun b hb => absurd hb (List.not_mem_nil b)
    size_bound := by simp }

theorem inv_new {a : Option Int} {c : CacheImpl} (h : New a = some c) : Inv c := by
  cases a with
  | none =>
    simp only [New, Option.some.injEq] at h
    rw [← h]
    exact inv_empty DefaultCapacity
  | some n =>
    simp only [New] at h
    by_cases hn : n < 0
    · rw [if_pos hn] at h
      cases h
    · rw [if_neg hn] at h
      simp only [Option.some.injEq] at h
      rw [← h]
      exact inv_empty n.toNat

theorem inv_applyOp {c : CacheImpl} {op : Op} {c' : CacheImpl}
    (hInv : Inv c) (h : applyOp c op = some c') : Inv c' := by
  cases op with
  | get k =>
    simp only [applyOp] at h
    obtain ⟨r, hr, hr2⟩ := Option.map_eq_some'.1 h
    obtain ⟨r1, r2⟩ := r
    rw [← hr2]
    exact inv_get hInv hr
  | put k v =>
    simp only [applyOp] at h
    exact inv_put hInv h
  | getFreq k =>
    simp only [applyOp, Option.some.injEq] at h
    rw [← h]; exact hInv
  | size =>
    simp only [applyOp, Option.some.injEq] at h
    rw [← h]; exact hInv
  | cap =>
    simp only [applyOp, Option.some.injEq] at h
    rw [← h]; exact hInv
  | iterate =>
    simp only [applyOp, Option.some.injEq] at h
    rw [← h]; exact hInv

theorem inv_run {ops : List Op} : ∀ {c c' : CacheImpl},
    Inv c → run c ops = some c' → Inv c' := by
  induction ops with
  | nil =>
    intro c c' hInv h
    simp only [run, Option.some.injEq] at h
    rw [← h]; exact hInv
  | cons op ops ih =>
    intro c c' hInv h
    simp only [run] at h
    obtain ⟨c1, hc1, hrest⟩ := Option.bind_eq_some.1 h
    exact ih (inv_applyOp hInv hc1) hrest

theorem reachable_inv {c : CacheImpl} (h : Reachable c) : Inv c := by
  obtain ⟨capArg, ops, c0, hnew, hrun⟩ := h
  exact inv_run (inv_new hnew) hrun

theorem applyOp_capacity {c : CacheImpl} {op : Op} {c' : CacheImpl}
    (hInv : Inv c) (h : applyOp c op = some c') : c'.capacity = c.capacity := by
  cases op with
  | get k =>
    simp only [applyOp] at h
    by_cases hk : k ∈ c.mpKeys
    · obtain ⟨e, f, c'', _, _, hget, _, hcap, _⟩ := get_hit_spec hInv hk
      rw [hget] at h
      simp only [Option.map_some', Option.some.injEq] at h
      rw [← h]
      exact hcap
    · rw [get_miss hk] at h
      simp only [Option.map_some', Option.some.injEq] at h
      rw [← h]
  | put k v =>
    simp only [applyOp] at h
    by_cases hk : k ∈ c.mpKeys
    · obtain ⟨f, c'', _, hput, _, _, hcap, _⟩ := @put_hit_spec c k v hInv hk
      rw [h] at hput
      cases hput
      exact hcap
    · obtain ⟨c1, c'', _, hput, _, _, _, _, hcap, _⟩ := @put_new_spec c k v hInv hk
      rw [h] at hput
      cases hput
      exact hcap
  | getFreq k =>
    simp only [applyOp, Option.some.injEq] at h
    rw [← h]
  | size =>
    simp only [applyOp, Option.some.injEq] at h
    rw [← h]
  | cap =>
    simp only [applyOp, Option.some.injEq] at h
    rw [← h]
  | iterate =>
    simp only [applyOp, Option.some.injEq] at h
    rw [← h]

theorem run_capacity {ops : List Op} : ∀ {c c' : CacheImpl},
    Inv c → run c ops = some c' → c'.capacity = c.capacity := by
  induction ops with
  | nil =>
    intro c c' _ h
    simp only [run, Option.some.injEq] at h
    rw [← h]
  | cons op ops ih =>
    intro c c' hInv h
    simp only [run] at h
    obtain ⟨c1, hc1, hrest⟩ := Option.bind_eq_some.1 h
    rw [ih (inv_applyOp hInv hc1) hrest]
    exact applyOp_capacity hInv hc1

/-! ## Properties of `All` -/

theorem yieldEntries_emit {y : Nat → Int → Bool} {es : List Entry} :
    yieldEntries y es =
      (emitStop y (es.map (fun e => (e.key, e.value))),
        es.all (fun e => y e.key e.value)) := by
  induction es with
  | nil => rfl
  | cons e rest ih =>
    by_cases hy : y e.key e.value
    · simp [yieldEntries, emitStop, hy, ih]
    · simp [yieldEntries, emitStop, hy]

theorem emitStop_append_of_all {y : Nat → Int → Bool} {l1 l2 : List (Nat × Int)}
    (h : l1.all (fun p => y p.1 p.2)) :
    emitStop y (l1 ++ l2) = l1 ++ emitStop y l2 := by
  induction l1 with
  | nil => rfl
  | cons p rest ih =>
    simp only [List.all_cons, Bool.and_eq_true] at h
    simp [emitStop, h.1, ih h.2]

theorem emitStop_append_of_stop {y : Nat → Int → Bool} {l1 l2 : List (Nat × Int)}
    (h : ¬ l1.all (fun p => y p.1 p.2) = true) :
    emitStop y (l1 ++ l2) = emitStop y l1 := by
  induction l1 with
  | nil => simp at h
  | cons p rest ih =>
    simp only [List.all_cons, Bool.and_eq_true] at h
    by_cases hy : y p.1 p.2
    · have hrest : ¬ rest.all (fun p => y p.1 p.2) = true := by
        intro hc
        exact h ⟨hy, hc⟩
      simp [emitStop, hy, ih hrest]
    · simp [emitStop, hy]

theorem emitStop_of_all {y : Nat → Int → Bool} {l : List (Nat × Int)}
    (h : l.all (fun p => y p.1 p.2)) : emitStop y l = l := by
  have := @emitStop_append_of_all y l [] h
  simpa [emitStop] using this

theorem all_pair_map {y : Nat → Int → Bool} {es : List Entry} :
    ((es.map (fun e => (e.key, e.value))).all (fun p => y p.1 p.2)) =
      es.all (fun e => y e.key e.value) := by
  induction es with
  | nil => rfl
  | cons e rest ih => simp [ih]

theorem yieldBuckets_emit {y : Nat → Int → Bool} : ∀ {bs : List Bucket},
    yieldBuckets y bs = emitStop y ((chainEntries bs).map (fun p => (p.1.key, p.1.value))) := by
  intro bs
  induction bs with
  | nil => rfl
  | cons b rest ih =>
    have hmapeq : (chainEntries (b :: rest)).map (fun p => (p.1.key, p.1.value)) =
        b.entries.map (fun e => (e.key, e.value)) ++
          (chainEntries rest).map (fun p => (p.1.key, p.1.value)) := by
      rw [chainEntries_cons, List.map_append, List.map_map]
      rfl
    rw [hmapeq]
    by_cases hb : b.entries.all (fun e => y e.key e.value)
    · have hall : (b.entries.map (fun e => (e.key, e.value))).all (fun p => y p.1 p.2) = true := by
        rw [all_pair_map]; exact hb
      rw [emitStop_append_of_all hall]
      simp only [yieldBuckets, yieldEntries_emit]
      rw [if_pos hb, ih, emitStop_of_all hall]
    · have hall : ¬ (b.entries.map (fun e => (e.key, e.value))).all (fun p => y p.1 p.2) = true := by
        rw [all_pair_map]; exact hb
      rw [emitStop_append_of_stop hall]
      simp only [yieldBuckets, yieldEntries_emit]
      rw [if_neg hb]

theorem allPairs_eq {c : CacheImpl} :
    AllPairs c = (allEntriesOrder c).map (fun p => (p.1.key, p.1.value)) := by
  rw [AllPairs, All, yieldBuckets_emit, emitStop_of_all (by simp)]
  rfl

theorem all_emitStop {c : CacheImpl} {y : Nat → Int → Bool} :
    All c y = emitStop y (AllPairs c) := by
  rw [All, yieldBuckets_emit, allPairs_eq, allEntriesOrder]

theorem chainEntries_reverse_perm : ∀ {bs : List Bucket},
    List.Perm (chainEntries bs.reverse) (chainEntries bs) := by
  intro bs
  induction bs with
  | nil => exact List.Perm.refl _
  | cons b rest ih =>
    rw [List.reverse_cons, chainEntries_append, chainEntries_cons]
    refine List.Perm.trans (List.perm_append_comm) ?_
    simp only [chainEntries_nil, List.append_nil, chainEntries_cons]
    exact ih.append_left _

theorem allEntriesOrder_length {c : CacheImpl} (hInv : Inv c) :
    (allEntriesOrder c).length = Size c := by
  rw [allEntriesOrder, chainEntries_reverse_perm.length_eq, Size,
    hInv.mp_perm.length_eq, chainKeys_eq_map, List.length_map]

theorem allEntriesOrder_freq {c : CacheImpl} (hInv : Inv c) :
    ∀ p ∈ allEntriesOrder c, GetKeyFrequency c p.1.key = some p.2 := by
  intro p hp
  have hmem : p ∈ chainEntries c.buckets := chainEntries_reverse_perm.subset hp
  have hkm : p.1.key ∈ c.mpKeys := by
    refine hInv.mp_perm.mem_iff.2 ?_
    rw [chainKeys_eq_map]
    exact List.mem_map_of_mem _ hmem
  have hfind : findEntryFreq c.buckets p.1.key = some (p.1, p.2) :=
    findEntryFreq_unique (chainKeys_nodup hInv) (by simpa using hmem) rfl
  rw [GetKeyFrequency, if_pos hkm, hfind]
  rfl

theorem allEntriesOrder_chain {c : CacheImpl} (hInv : Inv c) :
    (allEntriesOrder c).Chain'
      (fun p q => q.2 < p.2 ∨ (p.2 = q.2 ∧ q.1.touch < p.1.touch)) := by
  rw [allEntriesOrder]
  have hnonil : ([] : List (Entry × Nat)) ∉
      (c.buckets.reverse.map (fun b => b.entries.map (fun e => (e, b.frequency)))) := by
    intro hmem
    obtain ⟨b, hb, hbe⟩ := List.mem_map.1 hmem
    exact hInv.buckets_ne b (List.mem_reverse.1 hb) (List.map_eq_nil_iff.1 hbe)
  rw [chainEntries]
  refine (List.chain'_flatten hnonil).2 ⟨?_, ?_⟩
  · intro l hl
    obtain ⟨b, hb, rfl⟩ := List.mem_map.1 hl
    rw [List.chain'_map]
    have hrec := hInv.recency b (List.mem_reverse.1 hb)
    rw [List.chain'_map] at hrec
    refine hrec.imp ?_
    intro a b' hab
    exact Or.inr ⟨rfl, hab⟩
  · rw [List.chain'_map, List.chain'_reverse]
    have hs := hInv.sorted
    rw [List.chain'_map] at hs
    refine hs.imp ?_
    intro b1 b2 hlt
    intro x hx yy hyy
    have hx2 : x.2 = b2.frequency := by
      have hxm : x ∈ b2.entries.map (fun e => (e, b2.frequency)) :=
        List.mem_of_getLast?_eq_some hx
      obtain ⟨e, _, he⟩ := List.mem_map.1 hxm
      rw [← he]
    have hy2 : yy.2 = b1.frequency := by
      have hym : yy ∈ b1.entries.map (fun e => (e, b1.frequency)) := by
        have := List.mem_of_mem_head? hyy
        exact this
      obtain ⟨e, _, he⟩ := List.mem_map.1 hym
      rw [← he]
    exact Or.inl (by rw [hx2, hy2]; exact hlt)

/-! ## The claims -/

/-- Claim C4 (counterexample): construction accepts capacity 0, yet after
`Put` of one new key the cache holds that key, so `Size() = 1 > 0 =
Capacity()` — the invariant `Size() ≤ Capacity()` fails on a
capacity-0 cache.  (`Put` evicts before inserting; on an empty
zero-capacity cache there is nothing to evict, and the insertion is
unconditional.) -/
theorem c4_size_le_capacity_cex :
    New (some 0) = some ⟨0, [], [], 0⟩ ∧
    run ⟨0, [], [], 0⟩ [Op.put 1 10] = some ⟨0, [⟨1, [⟨1, 10, 0⟩]⟩], [1], 1⟩ ∧
    Size ⟨0, [⟨1, [⟨1, 10, 0⟩]⟩], [1], 1⟩ = 1 ∧
    Capacity ⟨0, [⟨1, [⟨1, 10, 0⟩]⟩], [1], 1⟩ = 0 ∧
    ¬ Size ⟨0, [⟨1, [⟨1, 10, 0⟩]⟩], [1], 1⟩ ≤
        Capacity ⟨0, [⟨1, [⟨1, 10, 0⟩]⟩], [1], 1⟩ := by
  refine ⟨rfl, by decide, rfl, rfl, by decide⟩

/-- Claim C4 (amended): for every cache constructed with a positive
capacity (the default included), after every operation of every sequence
`0 ≤ Size() ≤ Capacity()` holds.  (The original claim extended this to
capacity 0, which the code violates: a zero-capacity cache retains the
most recently put key, see the counterexample.) -/
theorem c4_size_le_capacity {a : Option Int} {c0 c : CacheImpl} {ops : List Op}
    (hnew : New a = some c0) (hpos : 1 ≤ Capacity c0) (hrun : run c0 ops = some c) :
    Size c ≤ Capacity c := by
  have hInv0 := inv_new hnew
  have hInv := inv_run hInv0 hrun
  have hcap : c.capacity = c0.capacity := run_capacity hInv0 hrun
  have hb := hInv.size_bound
  have hone : 1 ≤ c.capacity := by rw [hcap]; exact hpos
  calc Size c ≤ max c.capacity 1 := hb
  _ = c.capacity := max_eq_left hone

theorem c4_size_le_capacity_witness :
    New (some 2) = some ⟨2, [], [], 0⟩ ∧ 1 ≤ Capacity ⟨2, [], [], 0⟩ ∧
    run ⟨2, [], [], 0⟩ [Op.put 1 10, Op.put 2 20, Op.put 3 30] =
      some ⟨2, [⟨1, [⟨3, 30, 2⟩, ⟨2, 20, 1⟩]⟩], [3, 2], 3⟩ ∧
    Size ⟨2, [⟨1, [⟨3, 30, 2⟩, ⟨2, 20, 1⟩]⟩], [3, 2], 3⟩ ≤
      Capacity ⟨2, [⟨1, [⟨3, 30, 2⟩, ⟨2, 20, 1⟩]⟩], [3, 2], 3⟩ :=
  ⟨rfl, by decide, by decide,
    @c4_size_le_capacity (some 2) ⟨2, [], [], 0⟩
      ⟨2, [⟨1, [⟨3, 30, 2⟩, ⟨2, 20, 1⟩]⟩], [3, 2], 3⟩
      [Op.put 1 10, Op.put 2 20, Op.put 3 30] rfl (by decide) (by decide)⟩

/-- Claim C5: on a key that is absent from the hash index, `Get` fails
with `KeyNotFound` (modelled as the `none` payload) and returns the cache
state unchanged — the miss path only reads `mp`, so every observation
(`Size`, every stored value and frequency, `All`) is literally that of
the original state — and `GetKeyFrequency` likewise fails. -/
theorem c5_key_not_found {c : CacheImpl} {k : Nat} (hk : k ∉ c.mpKeys) :
    Get c k = some (none, c) ∧ GetKeyFrequency c k = none := by
  refine ⟨get_miss hk, ?_⟩
  rw [GetKeyFrequency, if_neg hk]

theorem c5_key_not_found_witness :
    Get ⟨2, [⟨1, [⟨2, 20, 1⟩, ⟨1, 10, 0⟩]⟩], [2, 1], 2⟩ 7 =
      some (none, ⟨2, [⟨1, [⟨2, 20, 1⟩, ⟨1, 10, 0⟩]⟩], [2, 1], 2⟩) ∧
    GetKeyFrequency ⟨2, [⟨1, [⟨2, 20, 1⟩, ⟨1, 10, 0⟩]⟩], [2, 1], 2⟩ 7 = none :=
  c5_key_not_found (by decide)

/-- Claim C6: from a reachable (hence well-formed) state no operation
other than a key miss can fail: `Put` always returns a state (so the
`panic(err)` branch in its existing-key path is unreachable), and
`delLast` never dereferences an absent bucket or entry.  (`Size`,
`Capacity` and `All` are total functions of the state by
construction.) -/
theorem c6_no_failure {c : CacheImpl} (hre : Reachable c) (k : Nat) (v : Int) :
    (Put c k v).isSome = true ∧ (delLast c).isSome = true := by
  have hInv := reachable_inv hre
  exact ⟨put_isSome hInv, delLast_isSome hInv⟩

theorem c6_no_failure_witness :
    (Put ⟨2, [⟨1, [⟨2, 20, 1⟩, ⟨1, 10, 0⟩]⟩], [2, 1], 2⟩ 7 (5 : Int)).isSome = true ∧
    (delLast ⟨2, [⟨1, [⟨2, 20, 1⟩, ⟨1, 10, 0⟩]⟩], [2, 1], 2⟩).isSome = true :=
  c6_no_failure
    ⟨some 2, [Op.put 1 10, Op.put 2 20], ⟨2, [], [], 0⟩, rfl, by decide⟩ 7 5

/-- Claim C7 (counterexample): on a capacity-4 cache after `Put` of keys
1..5 (value 10×key), the full enumeration `All()` yields the four keys
[5, 4, 3, 2] — not the three keys [5, 4, 3] the claim states.  The
repository test this scenario comes from (`TestIterator`) stops
consuming at key 2, which is why it observes only [5, 4, 3]. -/
theorem c7_scenario_e_cex :
    New (some 4) = some ⟨4, [], [], 0⟩ ∧
    run ⟨4, [], [], 0⟩ [Op.put 1 10, Op.put 2 20, Op.put 3 30, Op.put 4 40, Op.put 5 50] =
      some ⟨4, [⟨1, [⟨5, 50, 4⟩, ⟨4, 40, 3⟩, ⟨3, 30, 2⟩, ⟨2, 20, 1⟩]⟩], [5, 4, 3, 2], 5⟩ ∧
    (AllPairs ⟨4, [⟨1, [⟨5, 50, 4⟩, ⟨4, 40, 3⟩, ⟨3, 30, 2⟩, ⟨2, 20, 1⟩]⟩],
        [5, 4, 3, 2], 5⟩).map Prod.fst = [5, 4, 3, 2] ∧
    ¬ (AllPairs ⟨4, [⟨1, [⟨5, 50, 4⟩, ⟨4, 40, 3⟩, ⟨3, 30, 2⟩, ⟨2, 20, 1⟩]⟩],
        [5, 4, 3, 2], 5⟩).map Prod.fst = [5, 4, 3] := by
  refine ⟨rfl, by decide, by decide, by decide⟩

/-- Claim C7 (amended): on a capacity-4 cache, `Put` of keys 1..5 in
order (value 10×key) evicts exactly key 1, and `All()` yields keys
[5, 4, 3, 2] with values [50, 40, 30, 20]; a consumer that stops at
key 2 — as the repository's `TestIterator` does — collects exactly keys
[5, 4, 3] with values [50, 40, 30]. -/
theorem c7_scenario_e :
    run ⟨4, [], [], 0⟩ [Op.put 1 10, Op.put 2 20, Op.put 3 30, Op.put 4 40, Op.put 5 50] =
      some ⟨4, [⟨1, [⟨5, 50, 4⟩, ⟨4, 40, 3⟩, ⟨3, 30, 2⟩, ⟨2, 20, 1⟩]⟩], [5, 4, 3, 2], 5⟩ ∧
    (AllPairs ⟨4, [⟨1, [⟨5, 50, 4⟩, ⟨4, 40, 3⟩, ⟨3, 30, 2⟩, ⟨2, 20, 1⟩]⟩],
        [5, 4, 3, 2], 5⟩) = [(5, 50), (4, 40), (3, 30), (2, 20)] ∧
    ((AllPairs ⟨4, [⟨1, [⟨5, 50, 4⟩, ⟨4, 40, 3⟩, ⟨3, 30, 2⟩, ⟨2, 20, 1⟩]⟩],
        [5, 4, 3, 2], 5⟩).takeWhile (fun p => !(p.1 == 2))).map Prod.fst = [5, 4, 3] ∧
    ((AllPairs ⟨4, [⟨1, [⟨5, 50, 4⟩, ⟨4, 40, 3⟩, ⟨3, 30, 2⟩, ⟨2, 20, 1⟩]⟩],
        [5, 4, 3, 2], 5⟩).takeWhile (fun p => !(p.1 == 2))).map Prod.snd = [50, 40, 30] := by
  refine ⟨by decide, by decide, by decide, by decide⟩

/-- Claim C8: construction with no capacity argument yields
`Capacity() = DefaultCapacity = 5`; a negative capacity is a fatal error
(`panic`, modelled as `none`, so no usable instance results); every
non-negative capacity is accepted. -/
theorem c8_construction (n : Int) :
    (New none).map Capacity = some 5 ∧
    (n < 0 → New (some n) = none) ∧
    (0 ≤ n → (New (some n)).map Capacity = some n.toNat) := by
  refine ⟨rfl, ?_, ?_⟩
  · intro hn
    simp [New, hn]
  · intro hn
    have : ¬ n < 0 := not_lt.2 hn
    simp [New, this, Capacity]

theorem c8_construction_witness :
    (New none).map Capacity = some 5 ∧
    New (some (-1)) = none ∧
    (New (some 0)).map Capacity = some 0 ∧
    (New (some 7)).map Capacity = some 7 :=
  ⟨(c8_construction (-1)).1, (c8_construction (-1)).2.1 (by decide),
    (c8_construction 0).2.2 (by decide), (c8_construction 7).2.2 (by decide)⟩

/-- Claim C1: on a reachable cache with `0 < Capacity()` and
`Size() = Capacity()`, `Put` of an absent key first removes exactly one
entry — the back (`last`) entry of the front bucket, which has the
minimum frequency in the chain and, among entries of that frequency, the
least recent touch — and then inserts the new key, which ends up present
with `GetKeyFrequency(k) = 1` and the size unchanged. -/
theorem c1_eviction_policy {c : CacheImpl} {k : Nat} {v : Int}
    (hre : Reachable c) (hcap : 0 < Capacity c) (hsz : Size c = Capacity c)
    (hk : k ∉ c.mpKeys) :
    ∃ b rest e c', c.buckets = b :: rest ∧ b.entries.getLast? = some e ∧
      Put c k v = some c' ∧
      e.key ∈ c.mpKeys ∧ e.key ∉ c'.mpKeys ∧
      c'.mpKeys = k :: c.mpKeys.erase e.key ∧
      Size c' = Size c ∧
      GetKeyFrequency c' k = some 1 ∧
      (∀ p ∈ chainEntries c.buckets, b.frequency ≤ p.2) ∧
      (∀ p ∈ chainEntries c.buckets, p.2 = b.frequency → e.touch ≤ p.1.touch) := by
  have hInv := reachable_inv hre
  have hszpos : 0 < c.mpKeys.length := by
    have : Size c = Capacity c := hsz
    rw [Size] at this
    rw [this]
    exact hcap
  obtain ⟨b, rest, hb⟩ : ∃ b rest, c.buckets = b :: rest := by
    cases hbk : c.buckets with
    | nil =>
      exfalso
      have := hInv.mp_perm
      rw [hbk] at this
      have hnil : c.mpKeys = [] := List.Perm.eq_nil (by simpa using this)
      rw [hnil] at hszpos
      exact Nat.lt_irrefl 0 hszpos
    | cons b rest => exact ⟨b, rest, rfl⟩
  obtain ⟨e, c1, he, hdel, hekm, hmp1, hcap1, hclk1, hents1, hInv1, hsz1⟩ :=
    delLast_cons_spec hInv hb
  obtain ⟨c1', c', hif, hput, hins, hInv1', hInv', hmp', hcapEq, hclk', hents, hk1, _⟩ :=
    @put_new_spec c k v hInv hk
  have hge : Size c ≥ c.capacity := Nat.le_of_eq hsz.symm
  rw [if_pos hge, hdel] at hif
  have hc1 : c1' = c1 := Option.some.inj hif.symm
  subst hc1
  have hkey_ne : e.key ≠ k := by
    intro hcontra
    rw [hcontra] at hekm
    exact hk hekm
  refine ⟨b, rest, e, c', hb, he, hput, hekm, ?_, ?_, ?_, ?_,
    front_freq_min hInv hb, front_tail_touch_min hInv hb he⟩
  · rw [hmp', hmp1]
    intro hcontra
    rcases List.mem_cons.1 hcontra with h1 | h2
    · exact hkey_ne h1
    · exact ((hInv.mp_nodup.mem_erase_iff).1 h2).1 rfl
  · rw [hmp', hmp1]
  · rw [Size, hmp', List.length_cons, hmp1]
    rw [Size, hmp1] at hsz1
    exact hsz1
  · have hk' : k ∈ c'.mpKeys := by
      rw [hmp']
      exact List.mem_cons_self _ _
    have hmemc' : ((⟨k, v, c1'.clock⟩ : Entry), 1) ∈ chainEntries c'.buckets := by
      rw [hents]
      exact List.mem_cons_self _ _
    have hfind : findEntryFreq c'.buckets k = some (⟨k, v, c1'.clock⟩, 1) :=
      findEntryFreq_unique (chainKeys_nodup hInv') hmemc' rfl
    rw [GetKeyFrequency, if_pos hk', hfind]
    rfl

theorem c1_eviction_policy_witness :
    ∃ b rest e c',
      (⟨2, [⟨1, [⟨2, 20, 1⟩, ⟨1, 10, 0⟩]⟩], [2, 1], 2⟩ : CacheImpl).buckets = b :: rest ∧
      b.entries.getLast? = some e ∧
      Put ⟨2, [⟨1, [⟨2, 20, 1⟩, ⟨1, 10, 0⟩]⟩], [2, 1], 2⟩ 3 30 = some c' ∧
      e.key ∈ [2, 1] ∧ e.key ∉ c'.mpKeys ∧
      c'.mpKeys = 3 :: ([2, 1].erase e.key) ∧
      Size c' = Size ⟨2, [⟨1, [⟨2, 20, 1⟩, ⟨1, 10, 0⟩]⟩], [2, 1], 2⟩ ∧
      GetKeyFrequency c' 3 = some 1 ∧
      (∀ p ∈ chainEntries [⟨1, [⟨2, 20, 1⟩, ⟨1, 10, 0⟩]⟩], b.frequency ≤ p.2) ∧
      (∀ p ∈ chainEntries [⟨1, [⟨2, 20, 1⟩, ⟨1, 10, 0⟩]⟩],
        p.2 = b.frequency → e.touch ≤ p.1.touch) :=
  c1_eviction_policy
    ⟨some 2, [Op.put 1 10, Op.put 2 20], ⟨2, [], [], 0⟩, rfl, by decide⟩
    (by decide) (by decide) (by decide)

/-- Claim C2: on every reachable cache, `All` with a consumer that never
stops yields exactly `Size()` pairs, in the order of `allEntriesOrder`
(back of the chain first, each bucket front to back); the frequency of
each yielded key strictly decreases across buckets and is constant
within one (so frequencies are non-increasing overall), and within equal
frequency the greater ghost touch time — the more recently touched
entry — comes first; a consumer that answers `false` cuts the sequence
at that pair (`emitStop`), so no further pairs are produced. -/
theorem c2_all_ordering {c : CacheImpl} (hre : Reachable c) :
    (AllPairs c).length = Size c ∧
    AllPairs c = (allEntriesOrder c).map (fun p => (p.1.key, p.1.value)) ∧
    (∀ p ∈ allEntriesOrder c, GetKeyFrequency c p.1.key = some p.2) ∧
    (allEntriesOrder c).Chain'
      (fun p q => q.2 < p.2 ∨ (p.2 = q.2 ∧ q.1.touch < p.1.touch)) ∧
    (∀ y, All c y = emitStop y (AllPairs c)) := by
  have hInv := reachable_inv hre
  refine ⟨?_, allPairs_eq, allEntriesOrder_freq hInv, allEntriesOrder_chain hInv,
    fun y => all_emitStop⟩
  rw [allPairs_eq, List.length_map]
  exact allEntriesOrder_length hInv

theorem c2_all_ordering_witness :
    (AllPairs ⟨3, [⟨1, [⟨3, 9, 2⟩, ⟨2, 4, 1⟩]⟩, ⟨2, [⟨1, 1, 3⟩]⟩], [3, 2, 1], 4⟩).length =
      Size ⟨3, [⟨1, [⟨3, 9, 2⟩, ⟨2, 4, 1⟩]⟩, ⟨2, [⟨1, 1, 3⟩]⟩], [3, 2, 1], 4⟩ ∧
    All ⟨3, [⟨1, [⟨3, 9, 2⟩, ⟨2, 4, 1⟩]⟩, ⟨2, [⟨1, 1, 3⟩]⟩], [3, 2, 1], 4⟩
        (fun k _ => !(k == 3)) =
      emitStop (fun k _ => !(k == 3))
        (AllPairs ⟨3, [⟨1, [⟨3, 9, 2⟩, ⟨2, 4, 1⟩]⟩, ⟨2, [⟨1, 1, 3⟩]⟩], [3, 2, 1], 4⟩) :=
  ⟨(c2_all_ordering ⟨some 3, [Op.put 1 1, Op.put 2 4, Op.put 3 9, Op.get 1],
      ⟨3, [], [], 0⟩, rfl, by decide⟩).1,
    (c2_all_ordering ⟨some 3, [Op.put 1 1, Op.put 2 4, Op.put 3 9, Op.get 1],
      ⟨3, [], [], 0⟩, rfl, by decide⟩).2.2.2.2 _⟩

/-- Claim C3: on a reachable cache holding key `k` at frequency `f`,
`Get k` returns the currently stored value, leaves `Size()` unchanged
and raises the key's frequency to `f + 1`; `Put k v'` on the same
present key stores `v'` and likewise raises the frequency to `f + 1`. -/
theorem c3_frequency_bump {c : CacheImpl} {k : Nat} {f : Nat} (v' : Int)
    (hre : Reachable c) (hf : GetKeyFrequency c k = some f) :
    (∃ v c', Get c k = some (some v, c') ∧ findValue c.buckets k = some v ∧
      Size c' = Size c ∧ GetKeyFrequency c' k = some (f + 1)) ∧
    (∃ c'', Put c k v' = some c'' ∧ findValue c''.buckets k = some v' ∧
      GetKeyFrequency c'' k = some (f + 1)) := by
  have hInv := reachable_inv hre
  have hk : k ∈ c.mpKeys := by
    by_contra hk
    rw [GetKeyFrequency, if_neg hk] at hf
    cases hf
  constructor
  · obtain ⟨e, f1, c', hfe, hek, hget, hmp', _, _, hInv', _, hfind'⟩ := get_hit_spec hInv hk
    have hf1 : f1 = f := by
      rw [GetKeyFrequency, if_pos hk, hfe] at hf
      simpa using hf
    refine ⟨e.value, c', hget, by rw [findValue, hfe]; rfl, by rw [Size, Size, hmp'], ?_⟩
    have hk' : k ∈ c'.mpKeys := by rw [hmp']; exact hk
    rw [GetKeyFrequency, if_pos hk', hfind', hf1]
    rfl
  · obtain ⟨f2, c'', hf2, hput, hInv'', hmp'', _, hval'', hfreq''⟩ :=
      @put_hit_spec c k v' hInv hk
    have hf2f : f2 = f := by
      rw [hf2] at hf
      simpa using hf
    rw [hf2f] at hfreq''
    exact ⟨c'', hput, hval'', hfreq''⟩

theorem c3_frequency_bump_witness :
    (∃ v c', Get ⟨3, [⟨1, [⟨3, 9, 2⟩, ⟨2, 4, 1⟩]⟩, ⟨2, [⟨1, 1, 3⟩]⟩], [3, 2, 1], 4⟩ 1 =
        some (some v, c') ∧
      findValue [⟨1, [⟨3, 9, 2⟩, ⟨2, 4, 1⟩]⟩, ⟨2, [⟨1, 1, 3⟩]⟩] 1 = some v ∧
      Size c' = Size ⟨3, [⟨1, [⟨3, 9, 2⟩, ⟨2, 4, 1⟩]⟩, ⟨2, [⟨1, 1, 3⟩]⟩], [3, 2, 1], 4⟩ ∧
      GetKeyFrequency c' 1 = some 3) ∧
    (∃ c'', Put ⟨3, [⟨1, [⟨3, 9, 2⟩, ⟨2, 4, 1⟩]⟩, ⟨2, [⟨1, 1, 3⟩]⟩], [3, 2, 1], 4⟩ 1 99 =
        some c'' ∧
      findValue c''.buckets 1 = some 99 ∧
      GetKeyFrequency c'' 1 = some 3) :=
  c3_frequency_bump 99
    ⟨some 3, [Op.put 1 1, Op.put 2 4, Op.put 3 9, Op.get 1], ⟨3, [], [], 0⟩, rfl, by decide⟩
    (by decide)

/-- Claim C9: `Get` never removes a key — on a hit the hash index is
untouched and the chain keys are merely permuted, on a miss the state is
unchanged — and `Put` on an already-present key never removes a key
either; eviction can only happen in `Put`'s new-key path. -/
theorem c9_no_eviction_on_touch {c : CacheImpl} {k : Nat} {v : Int}
    (hre : Reachable c) :
    (∀ r c', Get c k = some (r, c') → c'.mpKeys = c.mpKeys ∧
      List.Perm (chainKeys c'.buckets) (chainKeys c.buckets)) ∧
    (k ∈ c.mpKeys → ∀ c'', Put c k v = some c'' → c''.mpKeys = c.mpKeys ∧
      List.Perm (chainKeys c''.buckets) (chainKeys c.buckets)) := by
  have hInv := reachable_inv hre
  constructor
  · intro r c' h
    by_cases hk : k ∈ c.mpKeys
    · obtain ⟨e, f, c2, _, _, hget, hmp2, _, _, hInv2, _, _⟩ := get_hit_spec hInv hk
      rw [h] at hget
      have hc : c' = c2 := by
        simp only [Option.some.injEq, Prod.mk.injEq] at hget
        exact hget.2
      subst hc
      refine ⟨hmp2, ?_⟩
      refine (hInv2.mp_perm.symm.trans ?_)
      rw [hmp2]
      exact hInv.mp_perm
    · rw [get_miss hk] at h
      have hc : c' = c := by
        simp only [Option.some.injEq, Prod.mk.injEq] at h
        exact h.2.symm
      subst hc
      exact ⟨rfl, List.Perm.refl _⟩
  · intro hk c'' h
    obtain ⟨f, c2, _, hput, hInv2, hmp2, _, _, _⟩ := @put_hit_spec c k v hInv hk
    rw [h] at hput
    have hc : c'' = c2 := Option.some.inj hput
    subst hc
    refine ⟨hmp2, ?_⟩
    refine (hInv2.mp_perm.symm.trans ?_)
    rw [hmp2]
    exact hInv.mp_perm

theorem c9_no_eviction_on_touch_witness :
    (⟨2, [⟨1, [⟨2, 20, 1⟩]⟩, ⟨2, [⟨1, 10, 2⟩]⟩], [2, 1], 3⟩ : CacheImpl).mpKeys =
      (⟨2, [⟨1, [⟨2, 20, 1⟩, ⟨1, 10, 0⟩]⟩], [2, 1], 2⟩ : CacheImpl).mpKeys ∧
    List.Perm (chainKeys [⟨1, [⟨2, 20, 1⟩]⟩, ⟨2, [⟨1, 10, 2⟩]⟩])
      (chainKeys [⟨1, [⟨2, 20, 1⟩, ⟨1, 10, 0⟩]⟩]) :=
  (@c9_no_eviction_on_touch ⟨2, [⟨1, [⟨2, 20, 1⟩, ⟨1, 10, 0⟩]⟩], [2, 1], 2⟩ 1 0
    ⟨some 2, [Op.put 1 10, Op.put 2 20], ⟨2, [], [], 0⟩, rfl, by decide⟩).1
    (some 10) ⟨2, [⟨1, [⟨2, 20, 1⟩]⟩, ⟨2, [⟨1, 10, 2⟩]⟩], [2, 1], 3⟩ (by decide)

/-- Claim C10: a zero-capacity cache is not always empty: `Put` of a new
key still inserts it — every `Put` first evicts whatever single entry
the cache held — so afterwards `Size() = 1`, `Get` of the new key
returns its value, and every previously present key is gone; the cache
always retains exactly the most recently put key. -/
theorem c10_zero_capacity {c : CacheImpl} {k : Nat} {v : Int}
    (hre : Reachable c) (hcap : Capacity c = 0) (hk : k ∉ c.mpKeys) :
    ∃ c', Put c k v = some c' ∧ Size c' = 1 ∧
      (∃ c'', Get c' k = some (some v, c'')) ∧
      ∀ k' ∈ c.mpKeys, k' ∉ c'.mpKeys := by
  have hInv := reachable_inv hre
  have hcap0 : c.capacity = 0 := hcap
  obtain ⟨c1, c', hif, hput, hins, hInv1, hInv', hmp', hcapEq, hclk', hents, hk1, _⟩ :=
    @put_new_spec c k v hInv hk
  have hge : Size c ≥ c.capacity := by rw [hcap0]; exact Nat.zero_le _
  rw [if_pos hge] at hif
  have hmp1nil : c1.mpKeys = [] := by
    cases hb : c.buckets with
    | nil =>
      rw [delLast_nil hb] at hif
      have hc1 : c1 = c := Option.some.inj hif.symm
      subst hc1
      have := hInv.mp_perm
      rw [hb] at this
      exact List.Perm.eq_nil (by simpa using this)
    | cons b rest =>
      obtain ⟨e, c1x, he, hdel, _, _, _, _, _, hInv1x, hsz1⟩ := delLast_cons_spec hInv hb
      rw [hdel] at hif
      have hc1 : c1 = c1x := Option.some.inj hif.symm
      subst hc1
      have hszc : Size c ≤ 1 := by
        have := hInv.size_bound
        rw [hcap0] at this
        simpa using this
      have : Size c1 = 0 := by omega
      exact List.length_eq_zero.1 this
  have hmpk : c'.mpKeys = [k] := by rw [hmp', hmp1nil]
  refine ⟨c', hput, by rw [Size, hmpk]; rfl, ?_, ?_⟩
  · have hk' : k ∈ c'.mpKeys := by rw [hmpk]; exact List.mem_cons_self _ _
    obtain ⟨e, f, c'', hfe, hek, hget, _⟩ := get_hit_spec hInv' hk'
    have hc1chain : chainEntries c1.buckets = [] := by
      have hck : chainKeys c1.buckets = [] := by
        have := hInv1.mp_perm
        rw [hmp1nil] at this
        exact (List.Perm.eq_nil this.symm)
      rw [chainKeys_eq_map] at hck
      exact List.map_eq_nil_iff.1 hck
    have hmem := (mem_chainKeys_of_findEntryFreq hfe).2
    rw [hents, hc1chain] at hmem
    simp only [List.mem_singleton, Prod.mk.injEq] at hmem
    have hev : e.value = v := by rw [hmem.1]
    rw [hev] at hget
    exact ⟨c'', hget⟩
  · intro k' hk'
    rw [hmpk]
    simp only [List.mem_singleton]
    intro hcontra
    rw [hcontra] at hk'
    exact hk hk'

theorem c10_zero_capacity_witness :
    ∃ c', Put ⟨0, [⟨1, [⟨1, 10, 0⟩]⟩], [1], 1⟩ 2 20 = some c' ∧ Size c' = 1 ∧
      (∃ c'', Get c' 2 = some (some 20, c'')) ∧
      ∀ k' ∈ [1], k' ∉ c'.mpKeys :=
  c10_zero_capacity
    ⟨some 0, [Op.put 1 10], ⟨0, [], [], 0⟩, rfl, by decide⟩
    (by decide) (by decide)

end LFU
